import Mathlib

/-!
# AT24C32 EEPROM driver (eonteam/at24c32): shallow embedding and verification

The driver (`src/src/at24c32.c`, `src/inc/at24c32.h`) is embedded with explicit
state passing.  Machine integers are natural numbers with explicit reductions
modulo `2^8` / `2^16` where the C code narrows a value.  The external
collaborators of the driver (`i2c_write`, `i2c_read`, `gpio_mode`, `gpio_set`,
`gpio_reset`, `delay`, declared in `eonOS.h`) are parameters: the bus transport
is an arbitrary state machine `Bus σ`, and every call to a collaborator is
recorded, in program order, in the event log of the `World`.
-/

namespace AT24C32

/-! ## Environment: bus transport, digital outputs, delays -/

/-- Framing flag of a bus transaction (`I2C_STOP` / `I2C_NOSTOP`). -/
inductive Framing where
  | I2C_STOP
  | I2C_NOSTOP
deriving DecidableEq, Repr

/-- Pin reference `pin_t`: either the sentinel `IGNORE` or a real pin. -/
inductive pin_t where
  | IGNORE
  | pin (n : Nat)
deriving DecidableEq, Repr

/-- One call to an external collaborator, as observed on the hardware. -/
inductive Event where
  | i2c_write (addr : Nat) (payload : List Nat) (framing : Framing) (ok : Bool)
  | i2c_read (addr : Nat) (len : Nat) (framing : Framing) (ok : Bool)
  | gpio_mode (pin : Nat)
  | gpio_set (pin : Nat)
  | gpio_reset (pin : Nat)
  | delay (ms : Nat)
deriving DecidableEq, Repr

/-- Bus transport with internal state `σ`.  `write` receives the bus address,
the `len` bytes found at the buffer pointer and the framing, and reports
success.  `read` receives the bus address, the destination buffer, the length
and the framing, and returns the success flag and the buffer as it left it. -/
structure Bus (σ : Type) where
  write : σ → Nat → List Nat → Framing → Bool × σ
  read : σ → Nat → (Nat → Nat) → Nat → Framing → Bool × (Nat → Nat) × σ

/-- State of the environment: the transport state and the chronological log of
all collaborator calls made so far. -/
structure World (σ : Type) where
  bus : σ
  log : List Event

/-- Array update `buf[i] = v`. -/
def bufSet (buf : Nat → Nat) (i v : Nat) : Nat → Nat :=
  fun j => if j = i then v else buf j

/-- The `len` bytes starting at a buffer pointer. -/
def bufBytes (buf : Nat → Nat) (len : Nat) : List Nat :=
  (List.range len).map buf

/-- Collaborator `delay(ms)`. -/
def delay {σ : Type} (ms : Nat) (w : World σ) : World σ :=
  { w with log := w.log ++ [Event.delay ms] }

/-- Collaborator `gpio_mode(pin, OUTPUT_PP, NOPULL, SPEED_HIGH)`. -/
def gpio_mode {σ : Type} (p : Nat) (w : World σ) : World σ :=
  { w with log := w.log ++ [Event.gpio_mode p] }

/-- Collaborator `gpio_set(pin)`. -/
def gpio_set {σ : Type} (p : Nat) (w : World σ) : World σ :=
  { w with log := w.log ++ [Event.gpio_set p] }

/-- Collaborator `gpio_reset(pin)`. -/
def gpio_reset {σ : Type} (p : Nat) (w : World σ) : World σ :=
  { w with log := w.log ++ [Event.gpio_reset p] }

/-- Collaborator `i2c_write(I2Cx, addr, buf, len, framing)`. -/
def i2c_write {σ : Type} (bus : Bus σ) (w : World σ) (addr : Nat) (buf : Nat → Nat)
    (len : Nat) (framing : Framing) : Bool × World σ :=
  let r := bus.write w.bus addr (bufBytes buf len) framing
  (r.1, { bus := r.2, log := w.log ++ [Event.i2c_write addr (bufBytes buf len) framing r.1] })

/-- Collaborator `i2c_read(I2Cx, addr, buf, len, framing)`. -/
def i2c_read {σ : Type} (bus : Bus σ) (w : World σ) (addr : Nat) (buf : Nat → Nat)
    (len : Nat) (framing : Framing) : Bool × (Nat → Nat) × World σ :=
  let r := bus.read w.bus addr buf len framing
  (r.1, r.2.1, { bus := r.2.2, log := w.log ++ [Event.i2c_read addr len framing r.1] })

/-! ## The driver -/

/-- Constant `AT24C32_BASE` (`#define AT24C32_BASE 0xA0`). -/
def AT24C32_BASE : Nat := 0xA0

/-- Constant `PAGE_WRITE_MODE_BYTES` (`#define PAGE_WRITE_MODE_BYTES ((uint8_t) 32)`). -/
def PAGE_WRITE_MODE_BYTES : Nat := 32

/-- Constant `PAGE_WRITE_MODE_MASK` (`#define PAGE_WRITE_MODE_MASK ((uint16_t) 0xFFFE)`).
The comment next to it in the source spells the mask as `1111 1111 1110 0000`,
which is `0xFFE0`; the value embedded here is the one in the code. -/
def PAGE_WRITE_MODE_MASK : Nat := 0xFFFE

/-- Device handle `at24c32_t` (the bus handle `I2Cx` is the `Bus` parameter). -/
structure at24c32_t where
  hw_addr : Nat
  wp_pin : pin_t
  _fullAddress : Nat
  _i2cbuf : Nat → Nat

/-- Function `_enable_wp`: assert the write-protect line, if there is one. -/
def _enable_wp {σ : Type} (ee : at24c32_t) (w : World σ) : World σ :=
  match ee.wp_pin with
  | pin_t.IGNORE => w
  | pin_t.pin p => delay 2 (gpio_set p (delay 1 w))

/-- Function `_disable_wp`: deassert the write-protect line, if there is one. -/
def _disable_wp {σ : Type} (ee : at24c32_t) (w : World σ) : World σ :=
  match ee.wp_pin with
  | pin_t.IGNORE => w
  | pin_t.pin p => delay 1 (gpio_reset p w)

/-- Function `at24c32_init`: clamp the hardware address, compute the bus address,
configure and assert the write-protect line if there is one. -/
def at24c32_init {σ : Type} (ee : at24c32_t) (w : World σ) : at24c32_t × World σ :=
  let ee := if ee.hw_addr < 0 ∨ ee.hw_addr > 7 then { ee with hw_addr := 7 } else ee
  let ee := { ee with _fullAddress := (AT24C32_BASE ||| (ee.hw_addr <<< 1)) % 256 }
  match ee.wp_pin with
  | pin_t.IGNORE => (ee, w)
  | pin_t.pin p => (ee, _enable_wp ee (gpio_mode p w))

/-- Function `at24c32_write`: write one byte at a 16-bit memory address. -/
def at24c32_write {σ : Type} (bus : Bus σ) (ee : at24c32_t) (address data : Nat)
    (w : World σ) : Bool × at24c32_t × World σ :=
  let buf := bufSet ee._i2cbuf 0 ((address >>> 8) % 256)
  let buf := bufSet buf 1 ((address &&& 0xFF) % 256)
  let buf := bufSet buf 2 data
  let ee := { ee with _i2cbuf := buf }
  let w := _disable_wp ee w
  let r := i2c_write bus w ee._fullAddress ee._i2cbuf 3 Framing.I2C_STOP
  let w := delay 5 r.2
  let w := _enable_wp ee w
  (r.1, ee, w)

/-- Local `page_end` of the paged-write loop:
`(cur_addr & PAGE_WRITE_MODE_MASK) + (PAGE_WRITE_MODE_BYTES - 1)` as `uint16_t`. -/
def page_end (cur_addr : Nat) : Nat :=
  ((cur_addr &&& PAGE_WRITE_MODE_MASK) + (PAGE_WRITE_MODE_BYTES - 1)) % 65536

/-- Local `page_remaining` of the paged-write loop:
`page_end - cur_addr + 1`, computed in `int` and narrowed to `uint8_t`. -/
def page_remaining (cur_addr : Nat) : Nat :=
  (((page_end cur_addr : Int) - (cur_addr : Int) + 1) % 256).toNat

/-- Local `txb_cnt` of the paged-write loop. -/
def txb_cnt (cur_addr wr_remaining_cnt : Nat) : Nat :=
  if wr_remaining_cnt ≤ page_remaining cur_addr then wr_remaining_cnt
  else page_remaining cur_addr

/-- The copy loop `for (i = 0; i < txb_cnt; i++) _i2cbuf[i + 2] = data[start_data_idx + i]`. -/
def copyChunk (data : List Nat) (start_data_idx cnt : Nat) (buf : Nat → Nat) : Nat → Nat :=
  (List.range cnt).foldl (fun b i => bufSet b (i + 2) (data.getD (start_data_idx + i) 0)) buf

/-- The `do { ... } while (wr_remaining_cnt > 0)` loop of `at24c32_writeMultiple`,
from the loop state `cur_addr`, `wr_remaining_cnt`, scratch buffer and world.
Returns `ret`, the scratch buffer and the world at loop exit. -/
def writeLoop {σ : Type} (bus : Bus σ) (fullAddress : Nat) (data : List Nat) (nbytes : Nat)
    (cur_addr wr_remaining_cnt : Nat) (buf : Nat → Nat) (w : World σ) :
    Bool × (Nat → Nat) × World σ :=
  let cnt := txb_cnt cur_addr wr_remaining_cnt
  let buf := bufSet buf 0 ((cur_addr >>> 8) % 256)
  let buf := bufSet buf 1 ((cur_addr &&& 0xFF) % 256)
  let start_data_idx := (nbytes + 256 - wr_remaining_cnt) % 256
  let buf := copyChunk data start_data_idx cnt buf
  let r := i2c_write bus w fullAddress buf (cnt + 2) Framing.I2C_STOP
  if r.1 = false then (false, buf, r.2)
  else
    let next_addr := (cur_addr + cnt) % 65536
    let next_cnt := (wr_remaining_cnt + 256 - cnt) % 256
    let w := delay 5 r.2
    if 0 < next_cnt then writeLoop bus fullAddress data nbytes next_addr next_cnt buf w
    else (true, buf, w)
termination_by wr_remaining_cnt
decreasing_by
  rename_i hpos
  have hpos : 0 < (wr_remaining_cnt + 256 - txb_cnt cur_addr wr_remaining_cnt) % 256 := hpos
  show (wr_remaining_cnt + 256 - txb_cnt cur_addr wr_remaining_cnt) % 256 < wr_remaining_cnt
  have hdiv : (cur_addr &&& 0xFFFE) / 2 = (cur_addr / 2) % 32768 := by
    rw [Nat.and_div_two]
    exact Nat.and_pow_two_sub_one_eq_mod (cur_addr / 2) 15
  have hbit : (cur_addr &&& 0xFFFE).testBit 0 = false := by
    rw [Nat.testBit_and]; simp
  have hmod : (cur_addr &&& 0xFFFE) % 2 = 0 := by
    rw [Nat.testBit_zero] at hbit
    rcases Nat.mod_two_eq_zero_or_one (cur_addr &&& 0xFFFE) with h0 | h0
    · exact h0
    · rw [h0] at hbit; simp at hbit
  have hrem : 0 < page_remaining cur_addr := by
    unfold page_remaining page_end PAGE_WRITE_MODE_MASK PAGE_WRITE_MODE_BYTES
    omega
  unfold txb_cnt at hpos ⊢
  split at hpos <;> rename_i hle <;> simp only [hle, if_true, if_false] <;> omega

/-- Function `at24c32_writeMultiple`: paged write of `nbytes` bytes of `data` from
`startAddress`. -/
def at24c32_writeMultiple {σ : Type} (bus : Bus σ) (ee : at24c32_t) (startAddress : Nat)
    (data : List Nat) (nbytes : Nat) (w : World σ) : Bool × at24c32_t × World σ :=
  let w := _disable_wp ee w
  let r := writeLoop bus ee._fullAddress data nbytes startAddress nbytes ee._i2cbuf w
  let ee := { ee with _i2cbuf := r.2.1 }
  let w := _enable_wp ee r.2.2
  (r.1, ee, w)

/-- Function `at24c32_read`: read the byte at a 16-bit memory address; 0 on failure. -/
def at24c32_read {σ : Type} (bus : Bus σ) (ee : at24c32_t) (address : Nat)
    (w : World σ) : Nat × at24c32_t × World σ :=
  let buf := bufSet ee._i2cbuf 0 ((address >>> 8) % 256)
  let buf := bufSet buf 1 ((address &&& 0xFF) % 256)
  let ee := { ee with _i2cbuf := buf }
  let r := i2c_write bus w ee._fullAddress ee._i2cbuf 2 Framing.I2C_NOSTOP
  if r.1 = false then (0, ee, r.2)
  else
    let q := i2c_read bus r.2 ee._fullAddress ee._i2cbuf 1 Framing.I2C_STOP
    let ee := { ee with _i2cbuf := q.2.1 }
    if q.1 = false then (0, ee, q.2.2)
    else (ee._i2cbuf 0, ee, q.2.2)

/-- Function `at24c32_readMultiple`: read `nbytes` bytes from `startAddress` into
the caller's buffer `rxdata`.  The parameter is `uint8_t startAddress`, while
every other operation takes a 16-bit address: the value the caller passes is
narrowed modulo `2^8` by the call, before the body runs.  Returns the success
flag and the caller's buffer as the call left it. -/
def at24c32_readMultiple {σ : Type} (bus : Bus σ) (ee : at24c32_t) (startAddress : Nat)
    (rxdata : Nat → Nat) (nbytes : Nat) (w : World σ) :
    Bool × (Nat → Nat) × at24c32_t × World σ :=
  let startAddress := startAddress % 256
  let buf := bufSet ee._i2cbuf 0 ((startAddress >>> 8) % 256)
  let buf := bufSet buf 1 ((startAddress &&& 0xFF) % 256)
  let ee := { ee with _i2cbuf := buf }
  let r := i2c_write bus w ee._fullAddress ee._i2cbuf 2 Framing.I2C_NOSTOP
  if r.1 = false then (false, rxdata, ee, r.2)
  else
    let q := i2c_read bus r.2 ee._fullAddress rxdata nbytes Framing.I2C_STOP
    (q.1, q.2.1, ee, q.2.2)

/-! ## Observations on the event log -/

/-- The events a call appended to the log: the log after the call without the
log before it. -/
def callLog {σ : Type} (before after : World σ) : List Event :=
  after.log.drop before.log.length

/-- A bus write transaction as seen on the bus. -/
structure Txn where
  addr : Nat
  payload : List Nat
  framing : Framing
  ok : Bool
deriving DecidableEq, Repr

/-- The bus write transactions among a list of events, in order. -/
def writeTxns (evs : List Event) : List Txn :=
  evs.filterMap fun e =>
    match e with
    | Event.i2c_write a p f ok => some { addr := a, payload := p, framing := f, ok := ok }
    | _ => none

/-- Memory address carried by the two leading payload bytes (high, low). -/
def Txn.memAddr (t : Txn) : Nat :=
  t.payload.getD 0 0 * 256 + t.payload.getD 1 0

/-- Data bytes of a write transaction: the payload after the 2 address bytes. -/
def Txn.dataBytes (t : Txn) : List Nat :=
  t.payload.drop 2

/-- Number of data bytes: transaction length minus the 2 address bytes. -/
def Txn.dataLen (t : Txn) : Nat :=
  t.payload.length - 2

/-- A bus transaction of either direction. -/
def Event.isBus : Event → Bool
  | Event.i2c_write _ _ _ _ => true
  | Event.i2c_read _ _ _ _ => true
  | _ => false

/-- A bus write transaction. -/
def Event.isBusWrite : Event → Bool
  | Event.i2c_write _ _ _ _ => true
  | _ => false

/-- A delay. -/
def Event.isDelay : Event → Bool
  | Event.delay _ => true
  | _ => false

/-- An operation on a digital output (configure, set or clear). -/
def Event.isGpio : Event → Bool
  | Event.gpio_mode _ => true
  | Event.gpio_set _ => true
  | Event.gpio_reset _ => true
  | _ => false

/-- Payload assembled by one iteration of the paged-write loop: the 2 address
bytes of `cur_addr`, then `txb_cnt` bytes of `data` from `start_data_idx`. -/
def chunkPayload (data : List Nat) (nbytes cur_addr wr_remaining_cnt : Nat) : List Nat :=
  ((cur_addr >>> 8) % 256) :: ((cur_addr &&& 0xFF) % 256) ::
    (List.range (txb_cnt cur_addr wr_remaining_cnt)).map
      (fun i => data.getD ((nbytes + 256 - wr_remaining_cnt) % 256 + i) 0)

/-- Scratch buffer after the assembly step of one iteration of the loop. -/
def loopBuf (data : List Nat) (nbytes cur_addr wr_remaining_cnt : Nat) (buf : Nat → Nat) :
    Nat → Nat :=
  copyChunk data ((nbytes + 256 - wr_remaining_cnt) % 256) (txb_cnt cur_addr wr_remaining_cnt)
    (bufSet (bufSet buf 0 ((cur_addr >>> 8) % 256)) 1 ((cur_addr &&& 0xFF) % 256))

/-- Event sequences of the paged-write loop started in loop state
`(cur_addr, wr_remaining_cnt)`, together with the value of `ret` at loop exit:
a failed transaction ends the loop; a successful one is followed by the settle
delay and, while bytes remain, by the next iteration. -/
inductive LoopRun (fullAddress : Nat) (data : List Nat) (nbytes : Nat) :
    Nat → Nat → List Event → Bool → Prop where
  | fail (cur rem : Nat) :
      LoopRun fullAddress data nbytes cur rem
        [Event.i2c_write fullAddress (chunkPayload data nbytes cur rem) Framing.I2C_STOP false]
        false
  | last (cur rem : Nat) (h : (rem + 256 - txb_cnt cur rem) % 256 = 0) :
      LoopRun fullAddress data nbytes cur rem
        [Event.i2c_write fullAddress (chunkPayload data nbytes cur rem) Framing.I2C_STOP true,
         Event.delay 5]
        true
  | step (cur rem : Nat) (evs : List Event) (ret : Bool)
      (h : 0 < (rem + 256 - txb_cnt cur rem) % 256)
      (tail : LoopRun fullAddress data nbytes ((cur + txb_cnt cur rem) % 65536)
        ((rem + 256 - txb_cnt cur rem) % 256) evs ret) :
      LoopRun fullAddress data nbytes cur rem
        (Event.i2c_write fullAddress (chunkPayload data nbytes cur rem) Framing.I2C_STOP true ::
          Event.delay 5 :: evs)
        ret

/-- Events of `_disable_wp` for a given write-protect pin. -/
def disableEvents : pin_t → List Event
  | pin_t.IGNORE => []
  | pin_t.pin p => [Event.gpio_reset p, Event.delay 1]

/-- Events of `_enable_wp` for a given write-protect pin. -/
def enableEvents : pin_t → List Event
  | pin_t.IGNORE => []
  | pin_t.pin p => [Event.delay 1, Event.gpio_set p, Event.delay 2]

/-! ## Sample environment for concrete runs -/

/-- A transport on which every transaction succeeds; reads leave the buffer as it is. -/
def okBus : Bus Unit where
  write := fun s _ _ _ => (true, s)
  read := fun s _ buf _ _ => (true, buf, s)

/-- An initialised handle with hardware address 0 and no write-protect line. -/
def ee0 : at24c32_t where
  hw_addr := 0
  wp_pin := pin_t.IGNORE
  _fullAddress := 0xA0
  _i2cbuf := fun _ => 0

/-- A world with an empty log. -/
def w0 : World Unit where
  bus := ()
  log := []

/-- A transport that counts its write transactions and fails exactly the one
with index `k` (counting from 0); reads succeed and leave the buffer as it is. -/
def failAtBus (k : Nat) : Bus Nat where
  write := fun n _ _ _ => (n != k, n + 1)
  read := fun n _ buf _ _ => (true, buf, n)

/-- A world for `failAtBus` with no transaction made yet and an empty log. -/
def w0n : World Nat where
  bus := 0
  log := []

/-- An initialised handle with hardware address 0 and write-protect line on pin 3. -/
def ee3 : at24c32_t where
  hw_addr := 0
  wp_pin := pin_t.pin 3
  _fullAddress := 0xA0
  _i2cbuf := fun _ => 0

/-! ## Device memory model for the round trip -/

/-- State of the modelled device: the stored bytes and the address latched by
the last address-only write. -/
structure Eeprom where
  mem : Nat → Nat
  ptr : Nat

/-- A transport that always succeeds and models the device memory: a 3-byte
STOP write `[hi, lo, d]` stores `d` at address `hi*256+lo`; a 2-byte NO_STOP
write `[hi, lo]` latches the address `hi*256+lo`; a read returns the bytes
stored from the latched address on.  Any other write leaves the device as it is. -/
def eepromBus : Bus Eeprom where
  write := fun s _ payload framing =>
    match payload, framing with
    | [hi, lo, d], Framing.I2C_STOP => (true, { s with mem := bufSet s.mem (hi * 256 + lo) d })
    | [hi, lo], Framing.I2C_NOSTOP => (true, { s with ptr := hi * 256 + lo })
    | _, _ => (true, s)
  read := fun s _ buf len _ =>
    (true, fun i => if i < len then s.mem (s.ptr + i) else buf i, s)

/-- A driver operation between the write and the read of a round trip. -/
inductive Op where
  | write (address data : Nat)
  | read (address : Nat)
deriving DecidableEq, Repr

/-- Run one operation on the handle and the world, dropping its result. -/
def Op.run {σ : Type} (bus : Bus σ) (st : at24c32_t × World σ) : Op → at24c32_t × World σ
  | Op.write a d => ((at24c32_write bus st.1 a d st.2).2.1, (at24c32_write bus st.1 a d st.2).2.2)
  | Op.read a => ((at24c32_read bus st.1 a st.2).2.1, (at24c32_read bus st.1 a st.2).2.2)

/-- The operation is not a write to `address` (its own address being 16-bit). -/
def Op.keeps (address : Nat) : Op → Bool
  | Op.write a _ => decide (a < 65536) && decide (a ≠ address)
  | Op.read _ => true

/-- A device whose memory is erased (all bytes `0xFF`), with an empty log. -/
def wErased : World Eeprom where
  bus := { mem := fun _ => 0xFF, ptr := 0 }
  log := []

/-- A handle as the caller prepares it before `at24c32_init`: hardware address
selector `s`, no write-protect line, derived fields not yet computed. -/
def eeRaw (s : Nat) : at24c32_t where
  hw_addr := s
  wp_pin := pin_t.IGNORE
  _fullAddress := 0
  _i2cbuf := fun _ => 0

/-- Level of the digital output `p` after a log of events: `some true` after
a `gpio_set`, `some false` after a `gpio_reset`, `none` while the log holds
neither. -/
def lineState (p : Nat) (log : List Event) : Option Bool :=
  log.foldl
    (fun s e =>
      match e with
      | Event.gpio_set q => if q = p then some true else s
      | Event.gpio_reset q => if q = p then some false else s
      | _ => s)
    none

/-! ## Basic facts about the embedding -/

theorem callLog_of_append {σ : Type} (w w2 : World σ) (evs : List Event)
    (h : w2.log = w.log ++ evs) : callLog w w2 = evs := by
  simp [callLog, h]

theorem and_mask (a : Nat) : a &&& 0xFFFE = 2 * ((a / 2) % 32768) := by
  have hdiv : (a &&& 0xFFFE) / 2 = (a / 2) % 32768 := by
    rw [Nat.and_div_two]
    exact Nat.and_pow_two_sub_one_eq_mod (a / 2) 15
  have hbit : (a &&& 0xFFFE).testBit 0 = false := by
    rw [Nat.testBit_and]; simp
  have hmod : (a &&& 0xFFFE) % 2 = 0 := by
    rw [Nat.testBit_zero] at hbit
    rcases Nat.mod_two_eq_zero_or_one (a &&& 0xFFFE) with h0 | h0
    · exact h0
    · rw [h0] at hbit; simp at hbit
  omega

/-- What the code computes: with the mask `0xFFFE` only bit 0 of the address is
cleared, so `page_remaining` is 32 at even and 31 at odd addresses. -/
theorem page_remaining_eq (cur : Nat) : page_remaining cur = 32 - cur % 2 := by
  have h := and_mask cur
  unfold page_remaining page_end PAGE_WRITE_MODE_MASK PAGE_WRITE_MODE_BYTES
  omega

theorem txb_cnt_eq (cur rem : Nat) : txb_cnt cur rem = min rem (32 - cur % 2) := by
  unfold txb_cnt
  rw [page_remaining_eq]
  split <;> omega

theorem copyChunk_apply (data : List Nat) (s cnt : Nat) (buf : Nat → Nat) (j : Nat) :
    copyChunk data s cnt buf j =
      if 2 ≤ j ∧ j < cnt + 2 then data.getD (s + (j - 2)) 0 else buf j := by
  induction cnt with
  | zero =>
    have : ¬ (2 ≤ j ∧ j < 0 + 2) := by omega
    simp [copyChunk, this]
  | succ n ih =>
    unfold copyChunk at ih ⊢
    rw [List.range_succ, List.foldl_append]
    simp only [List.foldl_cons, List.foldl_nil, bufSet]
    rw [ih]
    by_cases hj : j = n + 2
    · subst hj
      simp
    · simp only [hj, if_false]
      by_cases h2 : 2 ≤ j ∧ j < n + 2
      · have h3 : 2 ≤ j ∧ j < n + 1 + 2 := by omega
        simp [h2, h3]
      · have h3 : ¬ (2 ≤ j ∧ j < n + 1 + 2) := by omega
        simp [h2, h3]

theorem bufBytes_chunk (data : List Nat) (s cnt hi lo : Nat) (buf : Nat → Nat) :
    bufBytes (copyChunk data s cnt (bufSet (bufSet buf 0 hi) 1 lo)) (cnt + 2) =
      hi :: lo :: (List.range cnt).map (fun i => data.getD (s + i) 0) := by
  unfold bufBytes
  rw [List.range_succ_eq_map, List.range_succ_eq_map]
  simp only [List.map_cons, List.map_map]
  rw [copyChunk_apply, copyChunk_apply]
  simp only [bufSet]
  simp
  intro a ha
  rw [copyChunk_apply]
  have : 2 ≤ a + 1 + 1 ∧ a + 1 + 1 < cnt + 2 := by omega
  simp [this]

theorem next_cnt_lt (cur rem : Nat) (h : 0 < (rem + 256 - txb_cnt cur rem) % 256) :
    (rem + 256 - txb_cnt cur rem) % 256 < rem := by
  rw [txb_cnt_eq] at h ⊢
  omega

/-- One iteration of the loop, with the scratch buffer read back as the payload
that goes on the bus. -/
theorem writeLoop_unfold {σ : Type} (bus : Bus σ) (fullAddress : Nat) (data : List Nat)
    (nbytes cur rem : Nat) (buf : Nat → Nat) (w : World σ) :
    writeLoop bus fullAddress data nbytes cur rem buf w =
      if (bus.write w.bus fullAddress (chunkPayload data nbytes cur rem) Framing.I2C_STOP).1
          = false then
        (false, loopBuf data nbytes cur rem buf,
          ⟨(bus.write w.bus fullAddress (chunkPayload data nbytes cur rem) Framing.I2C_STOP).2,
            w.log ++ [Event.i2c_write fullAddress (chunkPayload data nbytes cur rem)
              Framing.I2C_STOP false]⟩)
      else if 0 < (rem + 256 - txb_cnt cur rem) % 256 then
        writeLoop bus fullAddress data nbytes ((cur + txb_cnt cur rem) % 65536)
          ((rem + 256 - txb_cnt cur rem) % 256) (loopBuf data nbytes cur rem buf)
          ⟨(bus.write w.bus fullAddress (chunkPayload data nbytes cur rem) Framing.I2C_STOP).2,
            w.log ++ [Event.i2c_write fullAddress (chunkPayload data nbytes cur rem)
              Framing.I2C_STOP true, Event.delay 5]⟩
      else
        (true, loopBuf data nbytes cur rem buf,
          ⟨(bus.write w.bus fullAddress (chunkPayload data nbytes cur rem) Framing.I2C_STOP).2,
            w.log ++ [Event.i2c_write fullAddress (chunkPayload data nbytes cur rem)
              Framing.I2C_STOP true, Event.delay 5]⟩) := by
  rw [writeLoop]
  simp only [i2c_write, bufBytes_chunk, chunkPayload, loopBuf, delay]
  cases hb : (bus.write w.bus fullAddress
      (cur >>> 8 % 256 :: (cur &&& 255) % 256 ::
        List.map (fun i => data.getD ((nbytes + 256 - rem) % 256 + i) 0)
          (List.range (txb_cnt cur rem))) Framing.I2C_STOP).1 <;> simp

/-- The loop produces one of the event sequences described by `LoopRun`, and
its result is the `ret` of that run. -/
theorem writeLoop_run {σ : Type} (bus : Bus σ) (fullAddress : Nat) (data : List Nat)
    (nbytes : Nat) (rem : Nat) :
    ∀ (cur : Nat) (buf : Nat → Nat) (w : World σ),
      ∃ evs, (writeLoop bus fullAddress data nbytes cur rem buf w).2.2.log = w.log ++ evs ∧
        LoopRun fullAddress data nbytes cur rem evs
          (writeLoop bus fullAddress data nbytes cur rem buf w).1 := by
  induction rem using Nat.strong_induction_on with
  | _ rem ih =>
    intro cur buf w
    rw [writeLoop_unfold]
    split
    · exact ⟨_, rfl, LoopRun.fail cur rem⟩
    · split
      · rename_i hpos
        obtain ⟨evs, hlog, hrun⟩ := ih _ (next_cnt_lt cur rem hpos)
          ((cur + txb_cnt cur rem) % 65536) (loopBuf data nbytes cur rem buf)
          ⟨(bus.write w.bus fullAddress (chunkPayload data nbytes cur rem) Framing.I2C_STOP).2,
            w.log ++ [Event.i2c_write fullAddress (chunkPayload data nbytes cur rem)
              Framing.I2C_STOP true, Event.delay 5]⟩
        refine ⟨Event.i2c_write fullAddress (chunkPayload data nbytes cur rem)
          Framing.I2C_STOP true :: Event.delay 5 :: evs, ?_, ?_⟩
        · rw [hlog]; simp
        · exact LoopRun.step cur rem evs _ hpos hrun
      · rename_i hzero
        exact ⟨_, rfl, LoopRun.last cur rem (by omega)⟩

theorem disable_wp_log {σ : Type} (ee : at24c32_t) (w : World σ) :
    (_disable_wp ee w).log = w.log ++ disableEvents ee.wp_pin := by
  unfold _disable_wp disableEvents
  cases ee.wp_pin <;> simp [delay, gpio_reset]

theorem enable_wp_log {σ : Type} (ee : at24c32_t) (w : World σ) :
    (_enable_wp ee w).log = w.log ++ enableEvents ee.wp_pin := by
  unfold _enable_wp enableEvents
  cases ee.wp_pin <;> simp [delay, gpio_set]

/-- Events of one `at24c32_writeMultiple` call: the write-protect release, a run
of the loop from `(startAddress, nbytes)`, the write-protect restore; the
returned flag is the `ret` of the run. -/
theorem writeMultiple_run {σ : Type} (bus : Bus σ) (ee : at24c32_t) (startAddress : Nat)
    (data : List Nat) (nbytes : Nat) (w : World σ) :
    ∃ evs, LoopRun ee._fullAddress data nbytes startAddress nbytes evs
        (at24c32_writeMultiple bus ee startAddress data nbytes w).1 ∧
      callLog w (at24c32_writeMultiple bus ee startAddress data nbytes w).2.2 =
        disableEvents ee.wp_pin ++ evs ++ enableEvents ee.wp_pin := by
  obtain ⟨evs, hlog, hrun⟩ := writeLoop_run bus ee._fullAddress data nbytes nbytes
    startAddress ee._i2cbuf (_disable_wp ee w)
  refine ⟨evs, hrun, ?_⟩
  apply callLog_of_append
  simp only [at24c32_writeMultiple]
  rw [enable_wp_log, hlog, disable_wp_log]
  simp

theorem writeTxns_append (a b : List Event) :
    writeTxns (a ++ b) = writeTxns a ++ writeTxns b := by
  simp [writeTxns]

theorem writeTxns_disable (p : pin_t) : writeTxns (disableEvents p) = [] := by
  cases p <;> rfl

theorem writeTxns_enable (p : pin_t) : writeTxns (enableEvents p) = [] := by
  cases p <;> rfl

/-- The bus write transactions of one `at24c32_writeMultiple` call are those of
a run of the loop. -/
theorem writeMultiple_txns {σ : Type} (bus : Bus σ) (ee : at24c32_t) (startAddress : Nat)
    (data : List Nat) (nbytes : Nat) (w : World σ) :
    ∃ evs, LoopRun ee._fullAddress data nbytes startAddress nbytes evs
        (at24c32_writeMultiple bus ee startAddress data nbytes w).1 ∧
      writeTxns (callLog w (at24c32_writeMultiple bus ee startAddress data nbytes w).2.2) =
        writeTxns evs := by
  obtain ⟨evs, hrun, hlog⟩ := writeMultiple_run bus ee startAddress data nbytes w
  refine ⟨evs, hrun, ?_⟩
  rw [hlog, writeTxns_append, writeTxns_append, writeTxns_disable, writeTxns_enable]
  simp

/-! ## C1, C2: page boundaries -/

theorem sample_run_30_5 :
    callLog w0 (at24c32_writeMultiple okBus ee0 30 [0x11, 0x22, 0x33, 0x44, 0x55] 5 w0).2.2 =
      [Event.i2c_write 0xA0 [0, 30, 0x11, 0x22, 0x33, 0x44, 0x55] Framing.I2C_STOP true,
       Event.delay 5] := by
  simp only [at24c32_writeMultiple]
  rw [writeLoop_unfold, if_neg (by decide), if_neg (by decide)]
  decide

/-- C1 (defect in the code): the paged write is meant never to issue a bus write
that crosses a multiple-of-32 boundary, but with the mask `0xFFFE` it does.
Writing 5 bytes at address 30 issues a transaction at memory address 30 with 5
data bytes, which covers addresses 30..34 and so pages 0 and 1. -/
theorem C1_transaction_crosses_page_boundary :
    ∃ t ∈ writeTxns (callLog w0
        (at24c32_writeMultiple okBus ee0 30 [0x11, 0x22, 0x33, 0x44, 0x55] 5 w0).2.2),
      t.memAddr = 30 ∧ t.dataLen = 5 ∧ 1 ≤ t.dataLen ∧
        t.memAddr / 32 ≠ (t.memAddr + t.dataLen - 1) / 32 := by
  rw [sample_run_30_5]
  decide

/-- C2 (defect in the code): the chunk size is meant to be
`min(remaining_count, 32 - current_address mod 32)`, but at address 30 with 5
bytes remaining the code takes a chunk of 5 instead of 2, and the call issues
one transaction `[30: 0x11 0x22 0x33 0x44 0x55]` instead of the two transactions
`[30: 0x11 0x22]`, `[32: 0x33 0x44 0x55]`. -/
theorem C2_chunk_size_exceeds_page_end :
    txb_cnt 30 5 = 5 ∧ min 5 (32 - 30 % 32) = 2 ∧
      page_end 30 = 61 ∧ 30 / 32 * 32 + 31 = 31 ∧
      writeTxns (callLog w0
        (at24c32_writeMultiple okBus ee0 30 [0x11, 0x22, 0x33, 0x44, 0x55] 5 w0).2.2) =
        [{ addr := 0xA0, payload := [0, 30, 0x11, 0x22, 0x33, 0x44, 0x55],
           framing := Framing.I2C_STOP, ok := true }] := by
  rw [sample_run_30_5]
  decide

/-! ## C3: total number of bytes written -/

theorem writeTxns_write_cons (a : Nat) (p : List Nat) (f : Framing) (ok : Bool)
    (evs : List Event) :
    writeTxns (Event.i2c_write a p f ok :: evs) =
      { addr := a, payload := p, framing := f, ok := ok } :: writeTxns evs := by
  simp [writeTxns]

theorem writeTxns_delay_cons (ms : Nat) (evs : List Event) :
    writeTxns (Event.delay ms :: evs) = writeTxns evs := by
  simp [writeTxns]

theorem writeTxns_nil : writeTxns [] = [] := rfl

theorem chunkPayload_length (data : List Nat) (nbytes cur rem : Nat) :
    (chunkPayload data nbytes cur rem).length = txb_cnt cur rem + 2 := by
  simp [chunkPayload]

theorem run_sum {fa : Nat} {data : List Nat} {nbytes cur rem : Nat} {evs : List Event}
    {ret : Bool} (h : LoopRun fa data nbytes cur rem evs ret) :
    rem < 256 → (∀ t ∈ writeTxns evs, t.ok = true) →
      ((writeTxns evs).map Txn.dataLen).sum = rem := by
  induction h with
  | fail cur rem =>
    intro _ hall
    have := hall _ (by rw [writeTxns_write_cons]; exact List.mem_cons_self _ _)
    simp at this
  | last cur rem hz =>
    intro hlt _
    rw [txb_cnt_eq] at hz
    simp only [writeTxns_write_cons, writeTxns_delay_cons, writeTxns_nil, List.map_cons,
      List.map_nil, List.sum_cons, List.sum_nil, Txn.dataLen, chunkPayload_length, txb_cnt_eq]
    omega
  | step cur rem evs ret hpos _ ih =>
    intro hlt hall
    have hnext : (rem + 256 - txb_cnt cur rem) % 256 < 256 := Nat.mod_lt _ (by decide)
    have hall2 : ∀ t ∈ writeTxns evs, t.ok = true := by
      intro t ht
      apply hall
      rw [writeTxns_write_cons, writeTxns_delay_cons]
      exact List.mem_cons_of_mem _ ht
    have hs := ih hnext hall2
    rw [txb_cnt_eq] at hs hpos
    simp only [writeTxns_write_cons, writeTxns_delay_cons, List.map_cons, List.sum_cons,
      Txn.dataLen, chunkPayload_length, txb_cnt_eq]
    omega

/-- C3: for every start address, source buffer and `nbytes` in [0,253], when
every bus transaction of one `at24c32_writeMultiple` call succeeds, the data-byte
counts (transaction length minus the 2 address bytes) of the transactions issued
by the call sum to `nbytes` exactly. -/
theorem C3_total_bytes_written {σ : Type} (bus : Bus σ) (ee : at24c32_t)
    (startAddress : Nat) (data : List Nat) (nbytes : Nat) (w : World σ)
    (hn : nbytes ≤ 253)
    (hok : ∀ t ∈ writeTxns (callLog w
      (at24c32_writeMultiple bus ee startAddress data nbytes w).2.2), t.ok = true) :
    ((writeTxns (callLog w
      (at24c32_writeMultiple bus ee startAddress data nbytes w).2.2)).map Txn.dataLen).sum
      = nbytes := by
  obtain ⟨evs, hrun, htx⟩ := writeMultiple_txns bus ee startAddress data nbytes w
  rw [htx] at hok ⊢
  exact run_sum hrun (by omega) hok

theorem C3_total_bytes_written_witness :
    5 ≤ 253 ∧
    ((writeTxns (callLog w0
      (at24c32_writeMultiple okBus ee0 30 [0x11, 0x22, 0x33, 0x44, 0x55] 5 w0).2.2)).map
        Txn.dataLen).sum = 5 :=
  ⟨by decide,
   C3_total_bytes_written okBus ee0 30 [0x11, 0x22, 0x33, 0x44, 0x55] 5 w0 (by decide)
    (by rw [sample_run_30_5]; decide)⟩

/-! ## C4: placement of the chunks -/

theorem range_map_getD (data : List Nat) (s n : Nat) (h : s + n ≤ data.length) :
    (List.range n).map (fun i => data.getD (s + i) 0) = (data.drop s).take n := by
  apply List.ext_getElem
  · simp; omega
  · intro i h1 h2
    simp at h1
    simp [List.getD_eq_getElem, show s + i < data.length by omega]

theorem addr_bytes (a : Nat) (h : a < 65536) :
    (a >>> 8) % 256 = a / 256 ∧ (a &&& 0xFF) % 256 = a % 256 := by
  have h1 : a >>> 8 = a / 256 := Nat.shiftRight_eq_div_pow a 8
  have h2 : a &&& 0xFF = a % 256 := Nat.and_pow_two_sub_one_eq_mod a 8
  rw [h1, h2]
  omega

theorem txb_cnt_le (cur rem : Nat) : txb_cnt cur rem ≤ rem := by
  rw [txb_cnt_eq]; omega

theorem chunkPayload_eq (data : List Nat) (nbytes cur rem : Nat) (hc : cur < 65536)
    (hr : rem ≤ nbytes) (hn : nbytes < 256) (hd : nbytes ≤ data.length) :
    chunkPayload data nbytes cur rem =
      cur / 256 :: cur % 256 :: (data.drop (nbytes - rem)).take (txb_cnt cur rem) := by
  have hle := txb_cnt_le cur rem
  have hidx : (nbytes + 256 - rem) % 256 = nbytes - rem := by omega
  unfold chunkPayload
  rw [(addr_bytes cur hc).1, (addr_bytes cur hc).2, hidx, range_map_getD _ _ _ (by omega)]

theorem run_placed {fa : Nat} {data : List Nat} {nbytes cur rem : Nat} {evs : List Event}
    {ret : Bool} (h : LoopRun fa data nbytes cur rem evs ret) :
    cur < 65536 → rem ≤ nbytes → nbytes < 256 → nbytes ≤ data.length →
      ∀ (pre : List Txn) (t : Txn) (post : List Txn), writeTxns evs = pre ++ t :: post →
        t.payload =
          ((cur + (pre.map Txn.dataLen).sum) % 65536) / 256 ::
          ((cur + (pre.map Txn.dataLen).sum) % 65536) % 256 ::
          (data.drop (nbytes - rem + (pre.map Txn.dataLen).sum)).take t.dataLen := by
  induction h with
  | fail cur rem =>
    intro hc hr hn hd pre t post heq
    rw [writeTxns_write_cons, writeTxns_nil] at heq
    cases pre with
    | nil =>
      simp only [List.nil_append, List.cons.injEq] at heq
      obtain ⟨heq, _⟩ := heq
      subst heq
      simp only [List.map_nil, List.sum_nil, Nat.add_zero, Txn.dataLen, chunkPayload_length,
        Nat.add_sub_cancel, Nat.mod_eq_of_lt hc]
      exact chunkPayload_eq data nbytes cur rem hc hr hn hd
    | cons x pre => simp at heq
  | last cur rem hz =>
    intro hc hr hn hd pre t post heq
    rw [writeTxns_write_cons, writeTxns_delay_cons, writeTxns_nil] at heq
    cases pre with
    | nil =>
      simp only [List.nil_append, List.cons.injEq] at heq
      obtain ⟨heq, _⟩ := heq
      subst heq
      simp only [List.map_nil, List.sum_nil, Nat.add_zero, Txn.dataLen, chunkPayload_length,
        Nat.add_sub_cancel, Nat.mod_eq_of_lt hc]
      exact chunkPayload_eq data nbytes cur rem hc hr hn hd
    | cons x pre => simp at heq
  | step cur rem evs ret hpos _ ih =>
    intro hc hr hn hd pre t post heq
    rw [writeTxns_write_cons, writeTxns_delay_cons] at heq
    have hle := txb_cnt_le cur rem
    cases pre with
    | nil =>
      simp only [List.nil_append, List.cons.injEq] at heq
      obtain ⟨heq, _⟩ := heq
      subst heq
      simp only [List.map_nil, List.sum_nil, Nat.add_zero, Txn.dataLen, chunkPayload_length,
        Nat.add_sub_cancel, Nat.mod_eq_of_lt hc]
      exact chunkPayload_eq data nbytes cur rem hc hr hn hd
    | cons x pre =>
      simp only [List.cons_append, List.cons.injEq] at heq
      obtain ⟨hx, heq⟩ := heq
      have hnext : (rem + 256 - txb_cnt cur rem) % 256 = rem - txb_cnt cur rem := by omega
      have h1 := ih (Nat.mod_lt _ (by decide)) (by omega) hn hd pre t post heq
      have hxl : x.dataLen = txb_cnt cur rem := by
        rw [← hx]; simp [Txn.dataLen, chunkPayload_length]
      rw [h1, hnext]
      simp only [List.map_cons, List.sum_cons, hxl]
      have e1 : ((cur + txb_cnt cur rem) % 65536 + (pre.map Txn.dataLen).sum) % 65536 =
          (cur + (txb_cnt cur rem + (pre.map Txn.dataLen).sum)) % 65536 := by omega
      have e2 : nbytes - (rem - txb_cnt cur rem) + (pre.map Txn.dataLen).sum =
          nbytes - rem + (txb_cnt cur rem + (pre.map Txn.dataLen).sum) := by omega
      rw [e1, e2]

theorem run_concat {fa : Nat} {data : List Nat} {nbytes cur rem : Nat} {evs : List Event}
    {ret : Bool} (h : LoopRun fa data nbytes cur rem evs ret) :
    rem ≤ nbytes → nbytes < 256 → nbytes ≤ data.length →
      (∀ t ∈ writeTxns evs, t.ok = true) →
        ((writeTxns evs).map Txn.dataBytes).flatten = (data.drop (nbytes - rem)).take rem := by
  induction h with
  | fail cur rem =>
    intro _ _ _ hall
    have := hall _ (by rw [writeTxns_write_cons]; exact List.mem_cons_self _ _)
    simp at this
  | last cur rem hz =>
    intro hr hn hd _
    have hle := txb_cnt_le cur rem
    have hidx : (nbytes + 256 - rem) % 256 = nbytes - rem := by omega
    have hcnt : txb_cnt cur rem = rem := by omega
    simp only [writeTxns_write_cons, writeTxns_delay_cons, writeTxns_nil, List.map_cons,
      List.map_nil, Txn.dataBytes, chunkPayload, List.drop_succ_cons, List.drop_zero,
      List.flatten_cons, List.flatten_nil, List.append_nil]
    rw [hidx, hcnt, range_map_getD _ _ _ (by omega)]
  | step cur rem evs ret hpos _ ih =>
    intro hr hn hd hall
    have hle := txb_cnt_le cur rem
    have hidx : (nbytes + 256 - rem) % 256 = nbytes - rem := by omega
    have hnext : (rem + 256 - txb_cnt cur rem) % 256 = rem - txb_cnt cur rem := by omega
    have hall2 : ∀ t ∈ writeTxns evs, t.ok = true := by
      intro t ht
      apply hall
      rw [writeTxns_write_cons, writeTxns_delay_cons]
      exact List.mem_cons_of_mem _ ht
    have h1 := ih (by omega) hn hd hall2
    simp only [writeTxns_write_cons, writeTxns_delay_cons, List.map_cons, Txn.dataBytes,
      chunkPayload, List.drop_succ_cons, List.drop_zero, List.flatten_cons]
    simp only [Txn.dataBytes] at h1
    rw [h1, hidx, hnext, range_map_getD _ _ _ (by omega)]
    have e1 : nbytes - (rem - txb_cnt cur rem) = nbytes - rem + txb_cnt cur rem := by omega
    have e2 : txb_cnt cur rem + (rem - txb_cnt cur rem) = rem := by omega
    have e3 := List.take_add (data.drop (nbytes - rem)) (txb_cnt cur rem)
      (rem - txb_cnt cur rem)
    rw [e2, List.drop_drop] at e3
    rw [e1, e3]

/-- C4: in every `at24c32_writeMultiple` call, a transaction `t` issued after the
transactions `pre` of the same call, with `off` the sum of the data-byte counts
of `pre`, has as payload the high byte and the low byte of
`(startAddress + off) mod 2^16` followed by the data bytes `data[off]`,
`data[off+1]`, ... in order.  Consequently, when all transactions succeed, the
data bytes of all transactions concatenate to the first `nbytes` bytes of the
source buffer (and the target addresses run contiguously from `startAddress`). -/
theorem C4_chunk_placement {σ : Type} (bus : Bus σ) (ee : at24c32_t)
    (startAddress : Nat) (data : List Nat) (nbytes : Nat) (w : World σ)
    (hs : startAddress < 65536) (hn : nbytes < 256) (hd : nbytes ≤ data.length) :
    (∀ (pre : List Txn) (t : Txn) (post : List Txn),
      writeTxns (callLog w (at24c32_writeMultiple bus ee startAddress data nbytes w).2.2) =
          pre ++ t :: post →
        t.payload =
            ((startAddress + (pre.map Txn.dataLen).sum) % 65536) / 256 ::
            ((startAddress + (pre.map Txn.dataLen).sum) % 65536) % 256 ::
            (data.drop ((pre.map Txn.dataLen).sum)).take t.dataLen ∧
          t.memAddr = (startAddress + (pre.map Txn.dataLen).sum) % 65536 ∧
          t.dataBytes = (data.drop ((pre.map Txn.dataLen).sum)).take t.dataLen) ∧
    ((∀ t ∈ writeTxns (callLog w
        (at24c32_writeMultiple bus ee startAddress data nbytes w).2.2), t.ok = true) →
      ((writeTxns (callLog w
        (at24c32_writeMultiple bus ee startAddress data nbytes w).2.2)).map
          Txn.dataBytes).flatten = data.take nbytes) := by
  obtain ⟨evs, hrun, htx⟩ := writeMultiple_txns bus ee startAddress data nbytes w
  rw [htx]
  constructor
  · intro pre t post heq
    have hp := run_placed hrun hs (Nat.le_refl _) hn hd pre t post heq
    simp only [Nat.sub_self, Nat.zero_add] at hp
    refine ⟨hp, ?_, ?_⟩
    · simp only [Txn.memAddr]
      rw [hp]
      simp only [List.getD_cons_zero, List.getD_cons_succ]
      omega
    · simp only [Txn.dataBytes]
      rw [hp]
      simp
  · intro hall
    have hc := run_concat hrun (Nat.le_refl _) hn hd hall
    simpa using hc

theorem C4_chunk_placement_witness :
    ((writeTxns (callLog w0
      (at24c32_writeMultiple okBus ee0 30 [0x11, 0x22, 0x33, 0x44, 0x55] 5 w0).2.2)).map
        Txn.dataBytes).flatten = [0x11, 0x22, 0x33, 0x44, 0x55].take 5 :=
  (C4_chunk_placement okBus ee0 30 [0x11, 0x22, 0x33, 0x44, 0x55] 5 w0
    (by decide) (by decide) (by decide)).2 (by rw [sample_run_30_5]; decide)

/-! ## C5: a failed chunk ends the call -/

theorem run_shape {fa : Nat} {data : List Nat} {nbytes cur rem : Nat} {evs : List Event}
    {ret : Bool} (h : LoopRun fa data nbytes cur rem evs ret) :
    ∃ (pre : List Txn) (t : Txn), writeTxns evs = pre ++ [t] ∧
      (∀ x ∈ pre, x.ok = true) ∧ t.ok = ret := by
  induction h with
  | fail cur rem =>
    exact ⟨[], _, by rw [writeTxns_write_cons, writeTxns_nil]; rfl, by simp, rfl⟩
  | last cur rem hz =>
    exact ⟨[], _, by rw [writeTxns_write_cons, writeTxns_delay_cons, writeTxns_nil]; rfl,
      by simp, rfl⟩
  | step cur rem evs ret hpos _ ih =>
    obtain ⟨pre, t, heq, hpre, ht⟩ := ih
    refine ⟨_ :: pre, t, by rw [writeTxns_write_cons, writeTxns_delay_cons, heq]; rfl, ?_, ht⟩
    intro x hx
    rcases List.mem_cons.mp hx with hx | hx
    · rw [hx]
    · exact hpre x hx

theorem append_singleton_eq_append_cons {α : Type} (pre pre2 post : List α) (t t2 : α)
    (h : pre ++ [t] = pre2 ++ t2 :: post) :
    (post = [] ∧ pre2 = pre ∧ t2 = t) ∨ t2 ∈ pre := by
  induction pre generalizing pre2 with
  | nil =>
    cases pre2 with
    | nil => simp at h; left; exact ⟨h.2, rfl, h.1.symm⟩
    | cons y ys => simp at h
  | cons x xs ih =>
    cases pre2 with
    | nil =>
      simp at h
      right; rw [← h.1]; exact List.mem_cons_self _ _
    | cons y ys =>
      simp only [List.cons_append, List.cons.injEq] at h
      rcases ih ys h.2 with ⟨h1, h2, h3⟩ | h4
      · left; exact ⟨h1, by rw [h.1, h2], h3⟩
      · right; exact List.mem_cons_of_mem _ h4

/-- C5: in every `at24c32_writeMultiple` call, if the transport reports success
on chunks `0..k-1` and failure on chunk `k`, then exactly `k+1` bus write
transactions are issued (none after chunk `k`) and the call returns false; and
the call returns true exactly when every transaction it issued succeeded. -/
theorem C5_failure_stops_the_write {σ : Type} (bus : Bus σ) (ee : at24c32_t)
    (startAddress : Nat) (data : List Nat) (nbytes : Nat) (w : World σ) :
    (∀ (k : Nat) (pre : List Txn) (t : Txn) (post : List Txn),
      writeTxns (callLog w (at24c32_writeMultiple bus ee startAddress data nbytes w).2.2) =
          pre ++ t :: post →
        pre.length = k → (∀ x ∈ pre, x.ok = true) → t.ok = false →
          (writeTxns (callLog w
            (at24c32_writeMultiple bus ee startAddress data nbytes w).2.2)).length = k + 1 ∧
          post = [] ∧
          (at24c32_writeMultiple bus ee startAddress data nbytes w).1 = false) ∧
    ((at24c32_writeMultiple bus ee startAddress data nbytes w).1 = true ↔
      ∀ t ∈ writeTxns (callLog w
        (at24c32_writeMultiple bus ee startAddress data nbytes w).2.2), t.ok = true) := by
  obtain ⟨evs, hrun, htx⟩ := writeMultiple_txns bus ee startAddress data nbytes w
  obtain ⟨pre0, t0, heq0, hpre0, ht0⟩ := run_shape hrun
  rw [htx, heq0]
  constructor
  · intro k pre t post heq hk _ hfail
    rcases append_singleton_eq_append_cons pre0 pre post t0 t heq with ⟨h1, h2, h3⟩ | h4
    · subst h1 h2 h3
      refine ⟨by simp [hk], rfl, ?_⟩
      rw [← ht0, hfail]
    · have := hpre0 t h4
      rw [hfail] at this
      exact absurd this (by decide)
  · constructor
    · intro hret t ht
      rcases List.mem_append.mp ht with h | h
      · exact hpre0 t h
      · rw [List.mem_singleton.mp h, ht0, hret]
    · intro hall
      rw [← ht0]
      exact hall t0 (by simp)

theorem sample_run_fail_at_1 :
    callLog w0n (at24c32_writeMultiple (failAtBus 1) ee0 0 (List.range 70) 70 w0n).2.2 =
      [Event.i2c_write 0xA0 (chunkPayload (List.range 70) 70 0 70) Framing.I2C_STOP true,
       Event.delay 5,
       Event.i2c_write 0xA0 (chunkPayload (List.range 70) 70 32 38) Framing.I2C_STOP false] := by
  simp only [at24c32_writeMultiple]
  rw [writeLoop_unfold, if_neg (by decide), if_pos (by decide), writeLoop_unfold,
    if_pos (by decide)]
  decide

theorem C5_failure_stops_the_write_witness :
    (writeTxns (callLog w0n
      (at24c32_writeMultiple (failAtBus 1) ee0 0 (List.range 70) 70 w0n).2.2)).length = 1 + 1 ∧
    ([] : List Txn) = [] ∧
    (at24c32_writeMultiple (failAtBus 1) ee0 0 (List.range 70) 70 w0n).1 = false :=
  (C5_failure_stops_the_write (failAtBus 1) ee0 0 (List.range 70) 70 w0n).1 1
    [{ addr := 0xA0, payload := chunkPayload (List.range 70) 70 0 70,
       framing := Framing.I2C_STOP, ok := true }]
    { addr := 0xA0, payload := chunkPayload (List.range 70) 70 32 38,
      framing := Framing.I2C_STOP, ok := false }
    []
    (by rw [sample_run_fail_at_1]; rfl) rfl (by decide) rfl

/-! ## C6: page-aligned start address -/

theorem chunkPayload_memAddr (fa : Nat) (data : List Nat) (nbytes cur rem : Nat)
    (f : Framing) (ok : Bool) (hc : cur < 65536) :
    Txn.memAddr { addr := fa, payload := chunkPayload data nbytes cur rem,
                  framing := f, ok := ok } = cur := by
  simp only [Txn.memAddr, chunkPayload, List.getD_cons_zero, List.getD_cons_succ]
  rw [(addr_bytes cur hc).1, (addr_bytes cur hc).2]
  omega

theorem run_aligned {fa : Nat} {data : List Nat} {nbytes cur rem : Nat} {evs : List Event}
    {ret : Bool} (h : LoopRun fa data nbytes cur rem evs ret) :
    cur % 32 = 0 → cur < 65536 → 1 ≤ rem → rem < 256 →
      (∀ t ∈ writeTxns evs, t.ok = true) →
        (writeTxns evs).map Txn.dataLen =
            List.replicate ((rem - 1) / 32) 32 ++ [rem - 32 * ((rem - 1) / 32)] ∧
          ∀ t ∈ writeTxns evs, t.memAddr % 32 = 0 := by
  induction h with
  | fail cur rem =>
    intro _ _ _ _ hall
    have := hall _ (by rw [writeTxns_write_cons]; exact List.mem_cons_self _ _)
    simp at this
  | last cur rem hz =>
    intro h32 hc h1 hlt _
    rw [txb_cnt_eq] at hz
    have hq : (rem - 1) / 32 = 0 := by omega
    simp only [writeTxns_write_cons, writeTxns_delay_cons, writeTxns_nil, List.map_cons,
      List.map_nil, Txn.dataLen, chunkPayload_length, txb_cnt_eq, hq, List.replicate_zero,
      List.nil_append, List.mem_singleton]
    constructor
    · congr 1; omega
    · intro t ht
      rw [ht, chunkPayload_memAddr _ _ _ _ _ _ _ hc]
      exact h32
  | step cur rem evs ret hpos _ ih =>
    intro h32 hc h1 hlt hall
    rw [txb_cnt_eq] at hpos ih
    have hcnt : min rem (32 - cur % 2) = 32 := by omega
    rw [hcnt] at hpos ih
    have hnext : (rem + 256 - 32) % 256 = rem - 32 := by omega
    rw [hnext] at hpos ih
    have hall2 : ∀ t ∈ writeTxns evs, t.ok = true := by
      intro t ht
      apply hall
      rw [writeTxns_write_cons, writeTxns_delay_cons]
      exact List.mem_cons_of_mem _ ht
    obtain ⟨hlen, haddr⟩ := ih (by omega) (Nat.mod_lt _ (by decide)) (by omega) (by omega) hall2
    have hq : (rem - 1) / 32 = (rem - 32 - 1) / 32 + 1 := by omega
    have hl : rem - 32 * ((rem - 32 - 1) / 32 + 1) = rem - 32 - 32 * ((rem - 32 - 1) / 32) := by
      omega
    simp only [writeTxns_write_cons, writeTxns_delay_cons, List.map_cons, Txn.dataLen,
      chunkPayload_length, txb_cnt_eq, hcnt, Nat.add_sub_cancel]
    constructor
    · rw [hq, List.replicate_succ, List.cons_append, hl, ← hlen]
    · intro t ht
      rcases List.mem_cons.mp ht with ht | ht
      · rw [ht, chunkPayload_memAddr _ _ _ _ _ _ _ hc]
        exact h32
      · exact haddr t ht

/-- C6: for every start address that is a multiple of 32 and every `nbytes` in
[1,253], with every bus transaction succeeding, `at24c32_writeMultiple` issues
exactly `ceil(nbytes/32)` write transactions, each at a memory address that is a
multiple of 32; all but the last carry exactly 32 data bytes and the last carries
the remaining `nbytes - 32*(ceil(nbytes/32)-1)` bytes. -/
theorem C6_aligned_write_chunks {σ : Type} (bus : Bus σ) (ee : at24c32_t)
    (startAddress : Nat) (data : List Nat) (nbytes : Nat) (w : World σ)
    (hs : startAddress < 65536) (h32 : startAddress % 32 = 0)
    (h1 : 1 ≤ nbytes) (hn : nbytes ≤ 253)
    (hok : ∀ t ∈ writeTxns (callLog w
      (at24c32_writeMultiple bus ee startAddress data nbytes w).2.2), t.ok = true) :
    (writeTxns (callLog w
      (at24c32_writeMultiple bus ee startAddress data nbytes w).2.2)).length
        = (nbytes + 31) / 32 ∧
    (∀ t ∈ writeTxns (callLog w
      (at24c32_writeMultiple bus ee startAddress data nbytes w).2.2), t.memAddr % 32 = 0) ∧
    (writeTxns (callLog w
      (at24c32_writeMultiple bus ee startAddress data nbytes w).2.2)).map Txn.dataLen
        = List.replicate ((nbytes + 31) / 32 - 1) 32 ++
            [nbytes - 32 * ((nbytes + 31) / 32 - 1)] := by
  obtain ⟨evs, hrun, htx⟩ := writeMultiple_txns bus ee startAddress data nbytes w
  rw [htx] at hok ⊢
  obtain ⟨hlen, haddr⟩ := run_aligned hrun h32 hs h1 (by omega) hok
  have hq : (nbytes + 31) / 32 - 1 = (nbytes - 1) / 32 := by omega
  rw [hq]
  refine ⟨?_, haddr, hlen⟩
  have := congrArg List.length hlen
  simp only [List.length_map, List.length_append, List.length_replicate,
    List.length_singleton] at this
  omega

theorem sample_run_0_35 :
    callLog w0 (at24c32_writeMultiple okBus ee0 0 (List.range 35) 35 w0).2.2 =
      [Event.i2c_write 0xA0 (0 :: 0 :: List.range 32) Framing.I2C_STOP true,
       Event.delay 5,
       Event.i2c_write 0xA0 [0, 32, 32, 33, 34] Framing.I2C_STOP true,
       Event.delay 5] := by
  simp only [at24c32_writeMultiple]
  rw [writeLoop_unfold, if_neg (by decide), if_pos (by decide), writeLoop_unfold,
    if_neg (by decide), if_neg (by decide)]
  decide

theorem C6_aligned_write_chunks_witness :
    (writeTxns (callLog w0
      (at24c32_writeMultiple okBus ee0 0 (List.range 35) 35 w0).2.2)).length = 2 ∧
    (writeTxns (callLog w0
      (at24c32_writeMultiple okBus ee0 0 (List.range 35) 35 w0).2.2)).map Txn.dataLen
        = [32, 3] :=
  have h := C6_aligned_write_chunks okBus ee0 0 (List.range 35) 35 w0
    (by decide) (by decide) (by decide) (by decide) (by rw [sample_run_0_35]; decide)
  ⟨h.1, h.2.2⟩

/-! ## C7, C9: the single-byte write and the write-protect line -/

theorem bufBytes_three (buf : Nat → Nat) (a b c : Nat) :
    bufBytes (bufSet (bufSet (bufSet buf 0 a) 1 b) 2 c) 3 = [a, b, c] := by
  simp [bufBytes, bufSet, List.range_succ]

theorem bufBytes_two (buf : Nat → Nat) (a b : Nat) :
    bufBytes (bufSet (bufSet buf 0 a) 1 b) 2 = [a, b] := by
  simp [bufBytes, bufSet, List.range_succ]

theorem disable_wp_bus {σ : Type} (ee : at24c32_t) (w : World σ) :
    (_disable_wp ee w).bus = w.bus := by
  unfold _disable_wp
  cases ee.wp_pin <;> rfl

/-- Events of one `at24c32_write` call and its returned flag. -/
theorem write_run {σ : Type} (bus : Bus σ) (ee : at24c32_t) (address data : Nat)
    (w : World σ) :
    (at24c32_write bus ee address data w).1 =
        (bus.write w.bus ee._fullAddress
          [(address >>> 8) % 256, (address &&& 0xFF) % 256, data] Framing.I2C_STOP).1 ∧
      callLog w (at24c32_write bus ee address data w).2.2 =
        disableEvents ee.wp_pin ++
          [Event.i2c_write ee._fullAddress
             [(address >>> 8) % 256, (address &&& 0xFF) % 256, data] Framing.I2C_STOP
             (at24c32_write bus ee address data w).1,
           Event.delay 5] ++ enableEvents ee.wp_pin := by
  constructor
  · simp only [at24c32_write, i2c_write, bufBytes_three, disable_wp_bus]
  · apply callLog_of_append
    simp only [at24c32_write]
    rw [enable_wp_log]
    simp only [delay, i2c_write, bufBytes_three, disable_wp_log, List.append_assoc,
      List.cons_append, List.nil_append]

theorem run_events {fa : Nat} {data : List Nat} {nbytes cur rem : Nat} {evs : List Event}
    {ret : Bool} (h : LoopRun fa data nbytes cur rem evs ret) :
    evs.filter (fun e => !e.isDelay) = evs.filter Event.isBusWrite := by
  induction h with
  | fail cur rem => rfl
  | last cur rem hz => rfl
  | step cur rem evs ret hpos _ ih =>
    rw [List.filter_cons_of_pos rfl, List.filter_cons_of_neg (by simp [Event.isDelay]),
      List.filter_cons_of_pos rfl, List.filter_cons_of_neg (by simp [Event.isBusWrite]), ih]

/-- C7: for both write operations, when a write-protect line is configured (pin
`p`), and whatever the outcome of the bus transactions, the events of one call
other than delays are: one deassert of the line (`gpio_reset p`), then all bus
write transactions of the call, then exactly one assert of the line
(`gpio_set p`).  The line is not touched between the transactions. -/
theorem C7_write_protect_sequence {σ : Type} (bus : Bus σ) (ee : at24c32_t)
    (address d startAddress : Nat) (data : List Nat) (nbytes : Nat) (w : World σ) (p : Nat)
    (hp : ee.wp_pin = pin_t.pin p) :
    (callLog w (at24c32_write bus ee address d w).2.2).filter (fun e => !e.isDelay) =
        Event.gpio_reset p ::
          ((callLog w (at24c32_write bus ee address d w).2.2).filter Event.isBusWrite ++
            [Event.gpio_set p]) ∧
    (callLog w (at24c32_writeMultiple bus ee startAddress data nbytes w).2.2).filter
          (fun e => !e.isDelay) =
        Event.gpio_reset p ::
          ((callLog w (at24c32_writeMultiple bus ee startAddress data nbytes w).2.2).filter
              Event.isBusWrite ++
            [Event.gpio_set p]) := by
  constructor
  · rw [(write_run bus ee address d w).2, hp]
    simp [disableEvents, enableEvents, List.filter, Event.isDelay, Event.isBusWrite]
  · obtain ⟨evs, hrun, hlog⟩ := writeMultiple_run bus ee startAddress data nbytes w
    rw [hlog, hp]
    simp only [disableEvents, enableEvents, List.filter_append, run_events hrun]
    simp [List.filter, Event.isDelay, Event.isBusWrite]

theorem sample_run_fail_wp :
    callLog w0n (at24c32_writeMultiple (failAtBus 1) ee3 0 (List.range 70) 70 w0n).2.2 =
      [Event.gpio_reset 3, Event.delay 1,
       Event.i2c_write 0xA0 (chunkPayload (List.range 70) 70 0 70) Framing.I2C_STOP true,
       Event.delay 5,
       Event.i2c_write 0xA0 (chunkPayload (List.range 70) 70 32 38) Framing.I2C_STOP false,
       Event.delay 1, Event.gpio_set 3, Event.delay 2] := by
  simp only [at24c32_writeMultiple]
  rw [writeLoop_unfold, if_neg (by decide), if_pos (by decide), writeLoop_unfold,
    if_pos (by decide)]
  decide

theorem C7_write_protect_sequence_witness :
    ee3.wp_pin = pin_t.pin 3 ∧
    (callLog w0n (at24c32_write (failAtBus 1) ee3 100 7 w0n).2.2).filter
          (fun e => !e.isDelay) =
        Event.gpio_reset 3 ::
          ((callLog w0n (at24c32_write (failAtBus 1) ee3 100 7 w0n).2.2).filter
              Event.isBusWrite ++
            [Event.gpio_set 3]) ∧
    (callLog w0n (at24c32_writeMultiple (failAtBus 1) ee3 0 (List.range 70) 70 w0n).2.2).filter
          (fun e => !e.isDelay) =
        Event.gpio_reset 3 ::
          ((callLog w0n
              (at24c32_writeMultiple (failAtBus 1) ee3 0 (List.range 70) 70 w0n).2.2).filter
              Event.isBusWrite ++
            [Event.gpio_set 3]) :=
  ⟨rfl, C7_write_protect_sequence (failAtBus 1) ee3 100 7 0 (List.range 70) 70 w0n 3 rfl⟩

theorem addr_bytes_id (a : Nat) (h : a < 65536) :
    (a >>> 8) % 256 = a >>> 8 ∧ (a &&& 0xFF) % 256 = a &&& 0xFF := by
  have h1 : a >>> 8 = a / 256 := Nat.shiftRight_eq_div_pow a 8
  have h2 : a &&& 0xFF = a % 256 := Nat.and_pow_two_sub_one_eq_mod a 8
  rw [h1, h2]
  omega

/-- C9: for every 16-bit address and every data byte, `at24c32_write` issues
exactly one bus transaction: a write to the resolved bus address of exactly the
3 bytes `[address >> 8, address & 0xFF, data]` with STOP framing; the value it
returns is that transaction's success flag, as reported by the transport. -/
theorem C9_single_byte_write {σ : Type} (bus : Bus σ) (ee : at24c32_t)
    (address data : Nat) (w : World σ) (ha : address < 65536) :
    (callLog w (at24c32_write bus ee address data w).2.2).filter Event.isBus =
        [Event.i2c_write ee._fullAddress [address >>> 8, address &&& 0xFF, data]
          Framing.I2C_STOP (at24c32_write bus ee address data w).1] ∧
      (at24c32_write bus ee address data w).1 =
        (bus.write w.bus ee._fullAddress [address >>> 8, address &&& 0xFF, data]
          Framing.I2C_STOP).1 := by
  obtain ⟨hret, hlog⟩ := write_run bus ee address data w
  rw [(addr_bytes_id address ha).1, (addr_bytes_id address ha).2] at hret hlog
  refine ⟨?_, hret⟩
  rw [hlog]
  cases ee.wp_pin <;>
    simp [disableEvents, enableEvents, List.filter, Event.isBus]

theorem C9_single_byte_write_witness :
    0x1234 < 65536 ∧
    (callLog w0 (at24c32_write okBus ee0 0x1234 0xAB w0).2.2).filter Event.isBus =
      [Event.i2c_write 0xA0 [0x12, 0x34, 0xAB] Framing.I2C_STOP true] :=
  ⟨by decide, (C9_single_byte_write okBus ee0 0x1234 0xAB w0 (by decide)).1⟩

/-! ## C10: the single-byte read -/

/-- C10: for every 16-bit address, `at24c32_read` first issues a NO_STOP bus
write of the 2 bytes `[address >> 8, address & 0xFF]`.  If that write fails, no
read transaction is issued and the result is 0.  Otherwise it issues exactly one
STOP-framed read of 1 byte into the scratch buffer and returns 0 if the read
fails and the byte read (the first byte of the buffer as the transport left it)
if it succeeds. -/
theorem C10_single_byte_read {σ : Type} (bus : Bus σ) (ee : at24c32_t)
    (address : Nat) (w : World σ) (ha : address < 65536) :
    let payload := [address >>> 8, address &&& 0xFF]
    let buf := bufSet (bufSet ee._i2cbuf 0 (address >>> 8)) 1 (address &&& 0xFF)
    let r := bus.write w.bus ee._fullAddress payload Framing.I2C_NOSTOP
    let q := bus.read r.2 ee._fullAddress buf 1 Framing.I2C_STOP
    (r.1 = false →
      callLog w (at24c32_read bus ee address w).2.2 =
          [Event.i2c_write ee._fullAddress payload Framing.I2C_NOSTOP false] ∧
        (at24c32_read bus ee address w).1 = 0) ∧
    (r.1 = true →
      callLog w (at24c32_read bus ee address w).2.2 =
          [Event.i2c_write ee._fullAddress payload Framing.I2C_NOSTOP true,
           Event.i2c_read ee._fullAddress 1 Framing.I2C_STOP q.1] ∧
        (at24c32_read bus ee address w).1 = if q.1 = true then q.2.1 0 else 0) := by
  simp only [at24c32_read, i2c_write, i2c_read, bufBytes_two,
    (addr_bytes_id address ha).1, (addr_bytes_id address ha).2]
  generalize bus.write w.bus ee._fullAddress [address >>> 8, address &&& 0xFF]
    Framing.I2C_NOSTOP = r
  obtain ⟨ok, s⟩ := r
  constructor
  · intro hr
    simp only at hr
    subst hr
    exact ⟨callLog_of_append _ _ _ rfl, rfl⟩
  · intro hr
    simp only at hr
    subst hr
    generalize bus.read s ee._fullAddress
      (bufSet (bufSet ee._i2cbuf 0 (address >>> 8)) 1 (address &&& 0xFF)) 1
      Framing.I2C_STOP = q
    obtain ⟨okr, rbuf, s2⟩ := q
    cases okr
    · exact ⟨callLog_of_append _ _ _ (by simp), rfl⟩
    · exact ⟨callLog_of_append _ _ _ (by simp), rfl⟩

theorem C10_single_byte_read_witness :
    100 < 65536 ∧
    callLog w0 (at24c32_read okBus ee0 100 w0).2.2 =
      [Event.i2c_write 0xA0 [0x00, 0x64] Framing.I2C_NOSTOP true,
       Event.i2c_read 0xA0 1 Framing.I2C_STOP true] :=
  ⟨by decide, ((C10_single_byte_read okBus ee0 100 w0 (by decide)).2 rfl).1⟩

/-! ## C8: write / read round trip -/

theorem enable_wp_bus {σ : Type} (ee : at24c32_t) (w : World σ) :
    (_enable_wp ee w).bus = w.bus := by
  unfold _enable_wp
  cases ee.wp_pin <;> rfl

theorem addr_join (a : Nat) (h : a < 65536) :
    (a >>> 8) % 256 * 256 + (a &&& 0xFF) % 256 = a := by
  rw [(addr_bytes a h).1, (addr_bytes a h).2]
  omega

theorem write_mem (ee : at24c32_t) (a x : Nat) (w : World Eeprom) (h : a < 65536) :
    (at24c32_write eepromBus ee a x w).1 = true ∧
      (at24c32_write eepromBus ee a x w).2.2.bus.mem = bufSet w.bus.mem a x := by
  simp only [at24c32_write, enable_wp_bus, delay, i2c_write, bufBytes_three, disable_wp_bus,
    eepromBus, addr_join a h, and_self]

theorem read_mem (ee : at24c32_t) (a : Nat) (w : World Eeprom) :
    (at24c32_read eepromBus ee a w).2.2.bus.mem = w.bus.mem := by
  simp [at24c32_read, i2c_write, i2c_read, bufBytes_two, eepromBus]

theorem read_val (ee : at24c32_t) (a : Nat) (w : World Eeprom) (h : a < 65536) :
    (at24c32_read eepromBus ee a w).1 = w.bus.mem a := by
  simp [at24c32_read, i2c_write, i2c_read, bufBytes_two, eepromBus, addr_join a h]

theorem ops_keep (address : Nat) (ops : List Op) :
    ∀ (st : at24c32_t × World Eeprom), (∀ op ∈ ops, op.keeps address = true) →
      (ops.foldl (Op.run eepromBus) st).2.bus.mem address = st.2.bus.mem address := by
  induction ops with
  | nil => intro st _; rfl
  | cons op ops ih =>
    intro st hall
    rw [List.foldl_cons, ih _ (fun o ho => hall o (List.mem_cons_of_mem _ ho))]
    have hop := hall op (List.mem_cons_self _ _)
    cases op with
    | write a x =>
      simp only [Op.keeps, Bool.and_eq_true, decide_eq_true_eq] at hop
      simp only [Op.run, (write_mem st.1 a x st.2 hop.1).2, bufSet]
      rw [if_neg (fun h => hop.2 h.symm)]
    | read a =>
      simp only [Op.run, read_mem]

/-- C8 (round trip): against the always-succeeding transport that models the
device memory, for every address in 0..4095 and every data byte `d`,
`at24c32_write(address, d)` succeeds and a later `at24c32_read(address)` returns
`d`, whatever single-byte operations come in between, as long as none of them is
a write to that address. -/
theorem C8_write_read_round_trip (ee : at24c32_t) (address d : Nat) (w : World Eeprom)
    (ops : List Op) (ha : address < 4096) (hops : ∀ op ∈ ops, op.keeps address = true) :
    (at24c32_write eepromBus ee address d w).1 = true ∧
      (at24c32_read eepromBus
        (ops.foldl (Op.run eepromBus)
          ((at24c32_write eepromBus ee address d w).2.1,
           (at24c32_write eepromBus ee address d w).2.2)).1
        address
        (ops.foldl (Op.run eepromBus)
          ((at24c32_write eepromBus ee address d w).2.1,
           (at24c32_write eepromBus ee address d w).2.2)).2).1 = d := by
  have h16 : address < 65536 := by omega
  refine ⟨(write_mem ee address d w h16).1, ?_⟩
  rw [read_val _ _ _ h16, ops_keep address ops _ hops]
  simp only [(write_mem ee address d w h16).2, bufSet, if_true]

theorem C8_write_read_round_trip_witness :
    100 < 4096 ∧
    (at24c32_read eepromBus
      ([Op.write 101 7, Op.read 100].foldl (Op.run eepromBus)
        ((at24c32_write eepromBus ee0 100 0x5A wErased).2.1,
         (at24c32_write eepromBus ee0 100 0x5A wErased).2.2)).1
      100
      ([Op.write 101 7, Op.read 100].foldl (Op.run eepromBus)
        ((at24c32_write eepromBus ee0 100 0x5A wErased).2.1,
         (at24c32_write eepromBus ee0 100 0x5A wErased).2.2)).2).1 = 0x5A :=
  ⟨by decide,
   (C8_write_read_round_trip ee0 100 0x5A wErased [Op.write 101 7, Op.read 100]
    (by decide) (by decide)).2⟩

/-! ## C11: the multi-byte read -/

/-- C11: for every start address and `nbytes`, `at24c32_readMultiple` first
issues a NO_STOP bus write of the 2 address bytes (those of the value `a` the
`uint8_t` parameter holds).  If that write fails it
returns false and issues no read transaction (the caller's buffer is left as it
was).  Otherwise it issues exactly one STOP-framed read of `nbytes` bytes into
the caller's buffer and returns that read's success flag. -/
theorem C11_multi_byte_read {σ : Type} (bus : Bus σ) (ee : at24c32_t)
    (startAddress : Nat) (rxdata : Nat → Nat) (nbytes : Nat) (w : World σ) :
    let a := startAddress % 256
    let payload := [(a >>> 8) % 256, (a &&& 0xFF) % 256]
    let r := bus.write w.bus ee._fullAddress payload Framing.I2C_NOSTOP
    let q := bus.read r.2 ee._fullAddress rxdata nbytes Framing.I2C_STOP
    (r.1 = false →
      callLog w (at24c32_readMultiple bus ee startAddress rxdata nbytes w).2.2.2 =
          [Event.i2c_write ee._fullAddress payload Framing.I2C_NOSTOP false] ∧
        (at24c32_readMultiple bus ee startAddress rxdata nbytes w).1 = false ∧
        (at24c32_readMultiple bus ee startAddress rxdata nbytes w).2.1 = rxdata) ∧
    (r.1 = true →
      callLog w (at24c32_readMultiple bus ee startAddress rxdata nbytes w).2.2.2 =
          [Event.i2c_write ee._fullAddress payload Framing.I2C_NOSTOP true,
           Event.i2c_read ee._fullAddress nbytes Framing.I2C_STOP q.1] ∧
        (at24c32_readMultiple bus ee startAddress rxdata nbytes w).1 = q.1 ∧
        (at24c32_readMultiple bus ee startAddress rxdata nbytes w).2.1 = q.2.1) := by
  simp only [at24c32_readMultiple, i2c_write, i2c_read, bufBytes_two]
  generalize bus.write w.bus ee._fullAddress
    [((startAddress % 256) >>> 8) % 256, ((startAddress % 256) &&& 0xFF) % 256]
    Framing.I2C_NOSTOP = r
  obtain ⟨ok, s⟩ := r
  constructor
  · intro hr
    simp only at hr
    subst hr
    exact ⟨callLog_of_append _ _ _ rfl, rfl, rfl⟩
  · intro hr
    simp only at hr
    subst hr
    exact ⟨callLog_of_append _ _ _ (by simp), rfl, rfl⟩

theorem C11_multi_byte_read_witness :
    callLog w0 (at24c32_readMultiple okBus ee0 16 (fun _ => 0) 4 w0).2.2.2 =
        [Event.i2c_write 0xA0 [0, 16] Framing.I2C_NOSTOP true,
         Event.i2c_read 0xA0 4 Framing.I2C_STOP true] ∧
    callLog w0n (at24c32_readMultiple (failAtBus 0) ee0 16 (fun _ => 0) 4 w0n).2.2.2 =
        [Event.i2c_write 0xA0 [0, 16] Framing.I2C_NOSTOP false] :=
  ⟨((C11_multi_byte_read okBus ee0 16 (fun _ => 0) 4 w0).2 rfl).1,
   ((C11_multi_byte_read (failAtBus 0) ee0 16 (fun _ => 0) 4 w0n).1 rfl).1⟩

/-! ## C12, C13, C19: initialisation -/

/-- The fields of the handle after `at24c32_init`. -/
theorem init_fields {σ : Type} (ee : at24c32_t) (w : World σ) :
    (at24c32_init ee w).1.hw_addr = (if ee.hw_addr ≤ 7 then ee.hw_addr else 7) ∧
      (at24c32_init ee w).1._fullAddress =
        (AT24C32_BASE ||| ((at24c32_init ee w).1.hw_addr <<< 1)) % 256 ∧
      (at24c32_init ee w).1.wp_pin = ee.wp_pin := by
  unfold at24c32_init
  by_cases h : ee.hw_addr ≤ 7
  · have h2 : ¬ (ee.hw_addr < 0 ∨ ee.hw_addr > 7) := by omega
    simp only [h, h2, if_true, if_false]
    cases hp : ee.wp_pin <;> simp
  · have h2 : ee.hw_addr < 0 ∨ ee.hw_addr > 7 := by omega
    simp only [h, h2, if_true, if_false]
    cases hp : ee.wp_pin <;> simp

theorem base_or_selector (s : Nat) (h : s ≤ 7) :
    (AT24C32_BASE ||| (s <<< 1)) % 256 = 0xA0 + 2 * s ∧
      (AT24C32_BASE ||| (s <<< 1)) % 256 = AT24C32_BASE ||| (s <<< 1) := by
  unfold AT24C32_BASE
  interval_cases s <;> decide

theorem init_selector_le {σ : Type} (ee : at24c32_t) (w : World σ) :
    (at24c32_init ee w).1.hw_addr ≤ 7 := by
  rw [(init_fields ee w).1]
  split <;> omega

/-- C12: for every value `s` of the hardware address selector before the call,
after `at24c32_init` the selector equals `s` when `s` is in 0..7 and equals 7
when `s` is 8 or above. -/
theorem C12_selector_clamped {σ : Type} (ee : at24c32_t) (w : World σ) :
    (ee.hw_addr ≤ 7 → (at24c32_init ee w).1.hw_addr = ee.hw_addr) ∧
      (8 ≤ ee.hw_addr → (at24c32_init ee w).1.hw_addr = 7) := by
  rw [(init_fields ee w).1]
  constructor
  · intro h; rw [if_pos h]
  · intro h; rw [if_neg (by omega)]

theorem C12_selector_clamped_witness :
    (at24c32_init (eeRaw 5) w0).1.hw_addr = 5 ∧ (at24c32_init (eeRaw 200) w0).1.hw_addr = 7 :=
  ⟨(C12_selector_clamped (eeRaw 5) w0).1 (by decide),
   (C12_selector_clamped (eeRaw 200) w0).2 (by decide)⟩

/-- C19 (as stated, refuted): with selector 0 the resolved bus address is
`0xA0 = 160`, which is not less than 128. -/
theorem C19_address_not_below_128 :
    (at24c32_init (eeRaw 0) w0).1._fullAddress = 160 ∧
      ¬ ((at24c32_init (eeRaw 0) w0).1._fullAddress < 128) := by
  decide

/-- C19 (amended): for every initial selector, the resolved bus address computed
by `at24c32_init` is an 8-bit bus address byte: it is less than 256, lies in
160..174 and has bit 0 clear; the 7-bit bus address is its upper seven bits,
`value / 2 = 0x50 + s < 128` for the clamped selector `s`. -/
theorem C19_bus_address_byte {σ : Type} (ee : at24c32_t) (w : World σ) :
    (at24c32_init ee w).1._fullAddress < 256 ∧
      160 ≤ (at24c32_init ee w).1._fullAddress ∧
      (at24c32_init ee w).1._fullAddress ≤ 174 ∧
      (at24c32_init ee w).1._fullAddress % 2 = 0 ∧
      (at24c32_init ee w).1._fullAddress / 2 = 0x50 + (at24c32_init ee w).1.hw_addr ∧
      (at24c32_init ee w).1._fullAddress / 2 < 128 := by
  have hle := init_selector_le ee w
  have hb := (base_or_selector _ hle).1
  rw [← (init_fields ee w).2.1] at hb
  omega

/-! ## C14: reads and the write-protect line -/

theorem lineState_append (p : Nat) (evs : List Event) (h : ∀ e ∈ evs, e.isGpio = false) :
    ∀ (log : List Event), lineState p (log ++ evs) = lineState p log := by
  induction evs with
  | nil => intro log; simp
  | cons e evs ih =>
    intro log
    have he := h e (List.mem_cons_self _ _)
    have h1 := ih (fun x hx => h x (List.mem_cons_of_mem _ hx)) (log ++ [e])
    rw [List.append_assoc] at h1
    rw [show log ++ e :: evs = log ++ ([e] ++ evs) from rfl, h1]
    unfold lineState
    rw [List.foldl_append]
    cases e <;> simp_all [Event.isGpio]

theorem filter_isGpio_nil (evs : List Event) (h : ∀ e ∈ evs, e.isGpio = false) :
    evs.filter Event.isGpio = [] := by
  rw [List.filter_eq_nil_iff]
  intro e he
  rw [h e he]
  decide

/-- Events of one `at24c32_read` call: bus transactions only. -/
theorem read_events {σ : Type} (bus : Bus σ) (ee : at24c32_t) (address : Nat) (w : World σ) :
    ∃ evs, (at24c32_read bus ee address w).2.2.log = w.log ++ evs ∧
      ∀ e ∈ evs, e.isGpio = false := by
  simp only [at24c32_read, i2c_write, i2c_read]
  generalize bus.write w.bus ee._fullAddress _ Framing.I2C_NOSTOP = r
  obtain ⟨ok, s⟩ := r
  cases ok
  · exact ⟨_, rfl, by simp [Event.isGpio]⟩
  · simp only [Bool.true_eq_false, if_false]
    generalize bus.read s ee._fullAddress _ 1 Framing.I2C_STOP = q
    obtain ⟨okr, rbuf, s2⟩ := q
    cases okr
    · exact ⟨_, List.append_assoc _ _ _, by simp [Event.isGpio]⟩
    · exact ⟨_, List.append_assoc _ _ _, by simp [Event.isGpio]⟩

/-- Events of one `at24c32_readMultiple` call: bus transactions only. -/
theorem readMultiple_events {σ : Type} (bus : Bus σ) (ee : at24c32_t) (startAddress : Nat)
    (rxdata : Nat → Nat) (nbytes : Nat) (w : World σ) :
    ∃ evs, (at24c32_readMultiple bus ee startAddress rxdata nbytes w).2.2.2.log =
        w.log ++ evs ∧
      ∀ e ∈ evs, e.isGpio = false := by
  simp only [at24c32_readMultiple, i2c_write, i2c_read]
  generalize bus.write w.bus ee._fullAddress _ Framing.I2C_NOSTOP = r
  obtain ⟨ok, s⟩ := r
  cases ok
  · exact ⟨_, rfl, by simp [Event.isGpio]⟩
  · exact ⟨_, List.append_assoc _ _ _, by simp [Event.isGpio]⟩

/-- C14: the write-protect line is never toggled during a read operation: for
every input and every transport, `at24c32_read` and `at24c32_readMultiple` issue
no configure, set or clear operation on a digital output, so the level of every
line `p` after the call is its level before. -/
theorem C14_reads_leave_write_protect {σ : Type} (bus : Bus σ) (ee : at24c32_t)
    (address startAddress : Nat) (rxdata : Nat → Nat) (nbytes : Nat) (w : World σ)
    (p : Nat) :
    (callLog w (at24c32_read bus ee address w).2.2).filter Event.isGpio = [] ∧
      lineState p (at24c32_read bus ee address w).2.2.log = lineState p w.log ∧
      (callLog w (at24c32_readMultiple bus ee startAddress rxdata nbytes w).2.2.2).filter
        Event.isGpio = [] ∧
      lineState p (at24c32_readMultiple bus ee startAddress rxdata nbytes w).2.2.2.log =
        lineState p w.log := by
  obtain ⟨evs, hlog, hev⟩ := read_events bus ee address w
  obtain ⟨evs2, hlog2, hev2⟩ := readMultiple_events bus ee startAddress rxdata nbytes w
  rw [callLog_of_append _ _ _ hlog, callLog_of_append _ _ _ hlog2, hlog, hlog2]
  exact ⟨filter_isGpio_nil _ hev, lineState_append p _ hev _,
    filter_isGpio_nil _ hev2, lineState_append p _ hev2 _⟩

/-! ## C15: no write-protect line -/

/-- The loop reads nothing from the log: started with log `log` it yields the
flag, buffer and transport state it yields from the empty log, and appends the
same events. -/
theorem writeLoop_log_free {σ : Type} (bus : Bus σ) (fullAddress : Nat) (data : List Nat)
    (nbytes : Nat) (rem : Nat) :
    ∀ (cur : Nat) (buf : Nat → Nat) (s : σ) (log : List Event),
      writeLoop bus fullAddress data nbytes cur rem buf ⟨s, log⟩ =
        ((writeLoop bus fullAddress data nbytes cur rem buf ⟨s, []⟩).1,
         (writeLoop bus fullAddress data nbytes cur rem buf ⟨s, []⟩).2.1,
         ⟨(writeLoop bus fullAddress data nbytes cur rem buf ⟨s, []⟩).2.2.bus,
          log ++ (writeLoop bus fullAddress data nbytes cur rem buf ⟨s, []⟩).2.2.log⟩) := by
  induction rem using Nat.strong_induction_on with
  | _ rem ih =>
    intro cur buf s log
    rw [writeLoop_unfold bus fullAddress data nbytes cur rem buf ⟨s, log⟩,
      writeLoop_unfold bus fullAddress data nbytes cur rem buf ⟨s, []⟩]
    simp only []
    split
    · rfl
    · split
      · rename_i hpos
        rw [ih _ (next_cnt_lt cur rem hpos) _ _ _
              (log ++ [Event.i2c_write fullAddress (chunkPayload data nbytes cur rem)
                Framing.I2C_STOP true, Event.delay 5]),
          ih _ (next_cnt_lt cur rem hpos) _ _ _
              ([] ++ [Event.i2c_write fullAddress (chunkPayload data nbytes cur rem)
                Framing.I2C_STOP true, Event.delay 5])]
        simp only [List.nil_append, List.append_assoc]
      · rfl

theorem run_no_gpio {fa : Nat} {data : List Nat} {nbytes cur rem : Nat} {evs : List Event}
    {ret : Bool} (h : LoopRun fa data nbytes cur rem evs ret) :
    ∀ e ∈ evs, e.isGpio = false := by
  induction h with
  | fail cur rem => simp [Event.isGpio]
  | last cur rem hz => simp [Event.isGpio]
  | step cur rem evs ret hpos _ ih =>
    intro e he
    rcases List.mem_cons.mp he with he | he
    · rw [he]; rfl
    · rcases List.mem_cons.mp he with he | he
      · rw [he]; rfl
      · exact ih e he

/-- Flag and events of one `at24c32_writeMultiple` call in terms of the loop run
from the empty log. -/
theorem writeMultiple_log_free {σ : Type} (bus : Bus σ) (ee : at24c32_t) (startAddress : Nat)
    (data : List Nat) (nbytes : Nat) (w : World σ) :
    (at24c32_writeMultiple bus ee startAddress data nbytes w).1 =
        (writeLoop bus ee._fullAddress data nbytes startAddress nbytes ee._i2cbuf
          ⟨w.bus, []⟩).1 ∧
      callLog w (at24c32_writeMultiple bus ee startAddress data nbytes w).2.2 =
        disableEvents ee.wp_pin ++
          (writeLoop bus ee._fullAddress data nbytes startAddress nbytes ee._i2cbuf
            ⟨w.bus, []⟩).2.2.log ++
          enableEvents ee.wp_pin := by
  have heta : _disable_wp ee w = ⟨w.bus, w.log ++ disableEvents ee.wp_pin⟩ := by
    have h1 := disable_wp_bus ee w
    have h2 := disable_wp_log ee w
    cases hd : _disable_wp ee w with
    | mk b l => rw [hd] at h1 h2; simp only at h1 h2; rw [h1, h2]
  have h := writeLoop_log_free bus ee._fullAddress data nbytes nbytes startAddress
    ee._i2cbuf w.bus (w.log ++ disableEvents ee.wp_pin)
  constructor
  · simp only [at24c32_writeMultiple]
    rw [heta, h]
  · apply callLog_of_append
    simp only [at24c32_writeMultiple]
    rw [enable_wp_log, heta, h]
    simp only [List.append_assoc]

theorem filter_isBus_disable (p : pin_t) : (disableEvents p).filter Event.isBus = [] := by
  cases p <;> rfl

theorem filter_isBus_enable (p : pin_t) : (enableEvents p).filter Event.isBus = [] := by
  cases p <;> rfl

/-- C15: when the write-protect line is absent (`wp_pin == IGNORE`), no operation
of the driver issues a configure, set or clear operation on a digital output,
and the bus transactions issued and the results returned by the two write
operations are the same as with a configured line `p`. -/
theorem C15_absent_write_protect {σ : Type} (bus : Bus σ) (ee : at24c32_t)
    (address d startAddress : Nat) (data : List Nat) (rxdata : Nat → Nat) (nbytes : Nat)
    (w : World σ) (p : Nat) (h : ee.wp_pin = pin_t.IGNORE) :
    ((callLog w (at24c32_init ee w).2).filter Event.isGpio = [] ∧
      (callLog w (at24c32_write bus ee address d w).2.2).filter Event.isGpio = [] ∧
      (callLog w (at24c32_writeMultiple bus ee startAddress data nbytes w).2.2).filter
        Event.isGpio = [] ∧
      (callLog w (at24c32_read bus ee address w).2.2).filter Event.isGpio = [] ∧
      (callLog w (at24c32_readMultiple bus ee startAddress rxdata nbytes w).2.2.2).filter
        Event.isGpio = []) ∧
    ((at24c32_write bus { ee with wp_pin := pin_t.pin p } address d w).1 =
        (at24c32_write bus ee address d w).1 ∧
      (callLog w (at24c32_write bus { ee with wp_pin := pin_t.pin p } address d w).2.2).filter
          Event.isBus =
        (callLog w (at24c32_write bus ee address d w).2.2).filter Event.isBus ∧
      (at24c32_writeMultiple bus { ee with wp_pin := pin_t.pin p } startAddress data nbytes w).1 =
        (at24c32_writeMultiple bus ee startAddress data nbytes w).1 ∧
      (callLog w (at24c32_writeMultiple bus { ee with wp_pin := pin_t.pin p }
          startAddress data nbytes w).2.2).filter Event.isBus =
        (callLog w (at24c32_writeMultiple bus ee startAddress data nbytes w).2.2).filter
          Event.isBus) := by
  constructor
  · refine ⟨?_, ?_, ?_, ?_, ?_⟩
    · have : (at24c32_init ee w).2 = w := by
        simp only [at24c32_init]
        split
        · rfl
        · rename_i q hq
          split at hq <;> simp [h] at hq
      rw [this]
      simp [callLog]
    · rw [(write_run bus ee address d w).2, h]
      simp [disableEvents, enableEvents, Event.isGpio]
    · obtain ⟨evs, hrun, hlog⟩ := writeMultiple_run bus ee startAddress data nbytes w
      rw [hlog, h]
      simp only [disableEvents, enableEvents, List.nil_append, List.append_nil]
      exact filter_isGpio_nil _ (run_no_gpio hrun)
    · obtain ⟨evs, hlog, hev⟩ := read_events bus ee address w
      rw [callLog_of_append _ _ _ hlog]
      exact filter_isGpio_nil _ hev
    · obtain ⟨evs, hlog, hev⟩ := readMultiple_events bus ee startAddress rxdata nbytes w
      rw [callLog_of_append _ _ _ hlog]
      exact filter_isGpio_nil _ hev
  · have hw1 := write_run bus ee address d w
    have hw2 := write_run bus { ee with wp_pin := pin_t.pin p } address d w
    have hm1 := writeMultiple_log_free bus ee startAddress data nbytes w
    have hm2 := writeMultiple_log_free bus { ee with wp_pin := pin_t.pin p }
      startAddress data nbytes w
    refine ⟨?_, ?_, ?_, ?_⟩
    · rw [hw1.1, hw2.1]
    · rw [hw1.2, hw2.2, hw1.1, hw2.1]
      simp only [List.filter_append, filter_isBus_disable, filter_isBus_enable]
    · rw [hm1.1, hm2.1]
    · rw [hm1.2, hm2.2]
      simp only [List.filter_append, filter_isBus_disable, filter_isBus_enable]

theorem C15_absent_write_protect_witness :
    ee0.wp_pin = pin_t.IGNORE ∧
    (callLog w0 (at24c32_writeMultiple okBus ee0 0 (List.range 35) 35 w0).2.2).filter
        Event.isGpio = [] ∧
    (callLog w0 (at24c32_writeMultiple okBus { ee0 with wp_pin := pin_t.pin 3 }
        0 (List.range 35) 35 w0).2.2).filter Event.isBus =
      (callLog w0 (at24c32_writeMultiple okBus ee0 0 (List.range 35) 35 w0).2.2).filter
        Event.isBus :=
  have h := C15_absent_write_protect okBus ee0 100 7 0 (List.range 35) (fun _ => 0) 35 w0 3 rfl
  ⟨rfl, h.1.2.2.1, h.2.2.2.2⟩

/-! ## C16: bound on the chunk size and the scratch buffer -/

theorem txb_cnt_le_32 (cur rem : Nat) : txb_cnt cur rem ≤ 32 := by
  rw [txb_cnt_eq]; omega

theorem loopBuf_frame (data : List Nat) (nbytes cur rem : Nat) (buf : Nat → Nat) (j : Nat)
    (hj : 34 ≤ j) : loopBuf data nbytes cur rem buf j = buf j := by
  have hle := txb_cnt_le_32 cur rem
  unfold loopBuf
  rw [copyChunk_apply, if_neg (by omega)]
  simp only [bufSet]
  rw [if_neg (by omega), if_neg (by omega)]

/-- The loop leaves the scratch buffer beyond index 33 as it was. -/
theorem writeLoop_frame {σ : Type} (bus : Bus σ) (fullAddress : Nat) (data : List Nat)
    (nbytes : Nat) (rem : Nat) :
    ∀ (cur : Nat) (buf : Nat → Nat) (w : World σ) (j : Nat), 34 ≤ j →
      (writeLoop bus fullAddress data nbytes cur rem buf w).2.1 j = buf j := by
  induction rem using Nat.strong_induction_on with
  | _ rem ih =>
    intro cur buf w j hj
    rw [writeLoop_unfold]
    split
    · exact loopBuf_frame data nbytes cur rem buf j hj
    · split
      · rename_i hpos
        rw [ih _ (next_cnt_lt cur rem hpos) _ _ _ j hj]
        exact loopBuf_frame data nbytes cur rem buf j hj
      · exact loopBuf_frame data nbytes cur rem buf j hj

theorem run_payload_le {fa : Nat} {data : List Nat} {nbytes cur rem : Nat} {evs : List Event}
    {ret : Bool} (h : LoopRun fa data nbytes cur rem evs ret) :
    ∀ t ∈ writeTxns evs, t.dataLen ≤ 32 ∧ t.payload.length ≤ 34 := by
  induction h with
  | fail cur rem =>
    intro t ht
    rw [writeTxns_write_cons, writeTxns_nil, List.mem_singleton] at ht
    have hle := txb_cnt_le_32 cur rem
    rw [ht]
    simp only [Txn.dataLen, chunkPayload_length]
    omega
  | last cur rem hz =>
    intro t ht
    rw [writeTxns_write_cons, writeTxns_delay_cons, writeTxns_nil, List.mem_singleton] at ht
    have hle := txb_cnt_le_32 cur rem
    rw [ht]
    simp only [Txn.dataLen, chunkPayload_length]
    omega
  | step cur rem evs ret hpos _ ih =>
    intro t ht
    rw [writeTxns_write_cons, writeTxns_delay_cons] at ht
    rcases List.mem_cons.mp ht with ht | ht
    · have hle := txb_cnt_le_32 cur rem
      rw [ht]
      simp only [Txn.dataLen, chunkPayload_length]
      omega
    · exact ih t ht

/-- C16: for every start address (also near `0xFFFF`, where the page-end
computation wraps modulo `2^16`), every `nbytes` and every transport, every
chunk of `at24c32_writeMultiple` carries at most 32 data bytes: the chunk size
is at most 32 in every loop state, every index `i + 2` the copy loop writes is
at most 33, the scratch buffer is left as it was from index 34 on, and every
transaction has at most 34 bytes. -/
theorem C16_chunk_fits_scratch_buffer {σ : Type} (bus : Bus σ) (ee : at24c32_t)
    (startAddress : Nat) (data : List Nat) (nbytes : Nat) (w : World σ) :
    (∀ (cur_addr wr_remaining_cnt : Nat), txb_cnt cur_addr wr_remaining_cnt ≤ 32 ∧
      ∀ i, i < txb_cnt cur_addr wr_remaining_cnt → i + 2 ≤ 33) ∧
    (∀ t ∈ writeTxns (callLog w
        (at24c32_writeMultiple bus ee startAddress data nbytes w).2.2),
      t.dataLen ≤ 32 ∧ t.payload.length ≤ 34) ∧
    (∀ j, 34 ≤ j →
      (at24c32_writeMultiple bus ee startAddress data nbytes w).2.1._i2cbuf j =
        ee._i2cbuf j) := by
  refine ⟨?_, ?_, ?_⟩
  · intro cur rem
    have hle := txb_cnt_le_32 cur rem
    exact ⟨hle, fun i hi => by omega⟩
  · obtain ⟨evs, hrun, htx⟩ := writeMultiple_txns bus ee startAddress data nbytes w
    rw [htx]
    exact run_payload_le hrun
  · intro j hj
    simp only [at24c32_writeMultiple]
    exact writeLoop_frame bus ee._fullAddress data nbytes nbytes startAddress ee._i2cbuf _ j hj

theorem C16_chunk_fits_scratch_buffer_witness :
    txb_cnt 65535 255 ≤ 32 ∧
    (at24c32_writeMultiple okBus ee0 65535 (List.range 255) 255 w0).2.1._i2cbuf 34 =
      ee0._i2cbuf 34 :=
  ⟨((C16_chunk_fits_scratch_buffer okBus ee0 65535 (List.range 255) 255 w0).1 65535 255).1,
   (C16_chunk_fits_scratch_buffer okBus ee0 65535 (List.range 255) 255 w0).2.2 34
    (by decide)⟩

/-! ## C17: termination of the loop -/

theorem run_count {fa : Nat} {data : List Nat} {nbytes cur rem : Nat} {evs : List Event}
    {ret : Bool} (h : LoopRun fa data nbytes cur rem evs ret) :
    rem < 256 → (writeTxns evs).length ≤ max 1 rem := by
  induction h with
  | fail cur rem =>
    intro _
    rw [writeTxns_write_cons, writeTxns_nil]
    simp
  | last cur rem hz =>
    intro _
    rw [writeTxns_write_cons, writeTxns_delay_cons, writeTxns_nil]
    simp
  | step cur rem evs ret hpos _ ih =>
    intro hlt
    have h1 := ih (Nat.mod_lt _ (by decide))
    rw [writeTxns_write_cons, writeTxns_delay_cons, List.length_cons]
    rw [txb_cnt_eq] at hpos h1
    omega

/-- C17: for every start address, every `nbytes` in 0..255 and every transport,
the loop of `at24c32_writeMultiple` terminates.  Whenever `wr_remaining_cnt > 0`
the chunk size is at least 1 and at most `wr_remaining_cnt`, so the count
decreases strictly, without underflow, on each successful iteration; the call
issues at least one and at most `max(1, nbytes)` transactions; and it ends
either with all `nbytes` bytes sent (count 0, result true) or at the first
failed transaction (result false). -/
theorem C17_loop_terminates {σ : Type} (bus : Bus σ) (ee : at24c32_t)
    (startAddress : Nat) (data : List Nat) (nbytes : Nat) (w : World σ)
    (hn : nbytes < 256) :
    (∀ (cur_addr wr_remaining_cnt : Nat), 0 < wr_remaining_cnt → wr_remaining_cnt < 256 →
      1 ≤ txb_cnt cur_addr wr_remaining_cnt ∧
      txb_cnt cur_addr wr_remaining_cnt ≤ wr_remaining_cnt ∧
      (wr_remaining_cnt + 256 - txb_cnt cur_addr wr_remaining_cnt) % 256 =
        wr_remaining_cnt - txb_cnt cur_addr wr_remaining_cnt ∧
      (wr_remaining_cnt + 256 - txb_cnt cur_addr wr_remaining_cnt) % 256 <
        wr_remaining_cnt) ∧
    1 ≤ (writeTxns (callLog w
      (at24c32_writeMultiple bus ee startAddress data nbytes w).2.2)).length ∧
    (writeTxns (callLog w
      (at24c32_writeMultiple bus ee startAddress data nbytes w).2.2)).length ≤ max 1 nbytes ∧
    (((at24c32_writeMultiple bus ee startAddress data nbytes w).1 = true ∧
        ((writeTxns (callLog w
          (at24c32_writeMultiple bus ee startAddress data nbytes w).2.2)).map
            Txn.dataLen).sum = nbytes) ∨
      ((at24c32_writeMultiple bus ee startAddress data nbytes w).1 = false ∧
        ∃ (pre : List Txn) (t : Txn),
          writeTxns (callLog w
            (at24c32_writeMultiple bus ee startAddress data nbytes w).2.2) = pre ++ [t] ∧
          (∀ x ∈ pre, x.ok = true) ∧ t.ok = false)) := by
  obtain ⟨evs, hrun, htx⟩ := writeMultiple_txns bus ee startAddress data nbytes w
  obtain ⟨pre, t, heq, hpre, ht⟩ := run_shape hrun
  rw [htx]
  refine ⟨?_, ?_, run_count hrun hn, ?_⟩
  · intro cur rem hpos hlt
    rw [txb_cnt_eq]
    omega
  · rw [heq]; simp
  · cases hret : (at24c32_writeMultiple bus ee startAddress data nbytes w).1
    · right
      exact ⟨rfl, pre, t, heq, hpre, by rw [ht, hret]⟩
    · left
      refine ⟨rfl, run_sum hrun hn ?_⟩
      intro x hx
      rw [heq] at hx
      rcases List.mem_append.mp hx with h | h
      · exact hpre x h
      · rw [List.mem_singleton.mp h, ht, hret]

theorem C17_loop_terminates_witness :
    35 < 256 ∧
    (writeTxns (callLog w0
      (at24c32_writeMultiple okBus ee0 0 (List.range 35) 35 w0).2.2)).length ≤ max 1 35 :=
  ⟨by decide,
   (C17_loop_terminates okBus ee0 0 (List.range 35) 35 w0 (by decide)).2.2.1⟩

/-! ## C18: start address of the multi-byte read -/

/-- Address bytes of the multi-byte read: whatever value the caller passes, the
`uint8_t` parameter holds it modulo 256, so the high byte is 0. -/
theorem read_start_bytes (startAddress : Nat) :
    ((startAddress % 256) >>> 8) % 256 = 0 ∧
      ((startAddress % 256) &&& 0xFF) % 256 = startAddress % 256 := by
  have hb := addr_bytes (startAddress % 256) (by omega)
  rw [hb.1, hb.2]
  omega

/-- The single bus write of one `at24c32_readMultiple` call. -/
theorem readMultiple_txns {σ : Type} (bus : Bus σ) (ee : at24c32_t)
    (startAddress : Nat) (rxdata : Nat → Nat) (nbytes : Nat) (w : World σ) :
    writeTxns (callLog w
        (at24c32_readMultiple bus ee startAddress rxdata nbytes w).2.2.2) =
      [{ addr := ee._fullAddress, payload := [0x00, startAddress % 256],
         framing := Framing.I2C_NOSTOP,
         ok := (bus.write w.bus ee._fullAddress [0x00, startAddress % 256]
                  Framing.I2C_NOSTOP).1 }] := by
  simp only [at24c32_readMultiple, i2c_write, i2c_read, bufBytes_two,
    (read_start_bytes startAddress).1, (read_start_bytes startAddress).2]
  generalize bus.write w.bus ee._fullAddress [0, startAddress % 256] Framing.I2C_NOSTOP = r
  obtain ⟨ok, s⟩ := r
  cases ok
  · rw [callLog_of_append _ _ [_] rfl]
    simp [writeTxns]
  · simp only [Bool.true_eq_false, if_false]
    rw [callLog_of_append _ _ _ (List.append_assoc _ _ _)]
    simp [writeTxns]

/-- C18: the multi-byte read takes an 8-bit start address.  Whatever value the
caller passes for `startAddress` (also a 16-bit address such as the other
operations take), the parameter holds it modulo 256 and the address payload sent
on the bus is `[0x00, startAddress mod 256]`, which is `[0x00, startAddress]` for
an 8-bit value: the high address byte is always 0 and a multi-byte read can only
start in the first 256 bytes (addresses 0..255) of the device. -/
theorem C18_read_start_address_is_8_bit {σ : Type} (bus : Bus σ) (ee : at24c32_t)
    (startAddress : Nat) (rxdata : Nat → Nat) (nbytes : Nat) (w : World σ) :
    writeTxns (callLog w
        (at24c32_readMultiple bus ee startAddress rxdata nbytes w).2.2.2) =
      [{ addr := ee._fullAddress, payload := [0x00, startAddress % 256],
         framing := Framing.I2C_NOSTOP,
         ok := (bus.write w.bus ee._fullAddress [0x00, startAddress % 256]
                  Framing.I2C_NOSTOP).1 }] ∧
    (∀ t ∈ writeTxns (callLog w
        (at24c32_readMultiple bus ee startAddress rxdata nbytes w).2.2.2),
      t.payload.getD 0 0 = 0 ∧ t.memAddr = startAddress % 256 ∧ t.memAddr < 256) ∧
    (startAddress < 256 →
      writeTxns (callLog w
          (at24c32_readMultiple bus ee startAddress rxdata nbytes w).2.2.2) =
        [{ addr := ee._fullAddress, payload := [0x00, startAddress],
           framing := Framing.I2C_NOSTOP,
           ok := (bus.write w.bus ee._fullAddress [0x00, startAddress]
                    Framing.I2C_NOSTOP).1 }]) := by
  have hlist := readMultiple_txns bus ee startAddress rxdata nbytes w
  refine ⟨hlist, ?_, ?_⟩
  · rw [hlist]
    intro t ht
    rw [List.mem_singleton.mp ht]
    simp only [Txn.memAddr, List.getD_cons_zero, List.getD_cons_succ]
    exact ⟨trivial, by omega, by omega⟩
  · intro hs
    rw [hlist, Nat.mod_eq_of_lt hs]

theorem C18_read_start_address_is_8_bit_witness :
    writeTxns (callLog w0
        (at24c32_readMultiple okBus ee0 4000 (fun _ => 0) 8 w0).2.2.2) =
      [{ addr := 0xA0, payload := [0x00, 160], framing := Framing.I2C_NOSTOP, ok := true }] ∧
    writeTxns (callLog w0
        (at24c32_readMultiple okBus ee0 200 (fun _ => 0) 8 w0).2.2.2) =
      [{ addr := 0xA0, payload := [0x00, 200], framing := Framing.I2C_NOSTOP, ok := true }] :=
  ⟨(C18_read_start_address_is_8_bit okBus ee0 4000 (fun _ => 0) 8 w0).1,
   (C18_read_start_address_is_8_bit okBus ee0 200 (fun _ => 0) 8 w0).2.2 (by decide)⟩

/-- For contrast, the single-byte read of the same 16-bit address 4000 sends both
address bytes, `[0x0F, 0xA0]`. -/
theorem sample_read_4000 :
    writeTxns (callLog w0 (at24c32_read okBus ee0 4000 w0).2.2) =
      [{ addr := 0xA0, payload := [0x0F, 0xA0], framing := Framing.I2C_NOSTOP, ok := true }] := by
  decide

/-! ## C20: zero-length paged write -/

/-- C20: for every start address, `at24c32_writeMultiple` with `nbytes = 0` still
issues exactly one bus transaction: a STOP-framed write of length 2 carrying the
two address bytes of `startAddress` and no data byte; the call returns that
transaction's success flag. -/
theorem C20_zero_length_write {σ : Type} (bus : Bus σ) (ee : at24c32_t)
    (startAddress : Nat) (data : List Nat) (w : World σ) (hs : startAddress < 65536) :
    (callLog w (at24c32_writeMultiple bus ee startAddress data 0 w).2.2).filter Event.isBus =
        [Event.i2c_write ee._fullAddress [startAddress >>> 8, startAddress &&& 0xFF]
          Framing.I2C_STOP (at24c32_writeMultiple bus ee startAddress data 0 w).1] ∧
      (at24c32_writeMultiple bus ee startAddress data 0 w).1 =
        (bus.write w.bus ee._fullAddress [startAddress >>> 8, startAddress &&& 0xFF]
          Framing.I2C_STOP).1 := by
  have hcnt : txb_cnt startAddress 0 = 0 := by rw [txb_cnt_eq]; omega
  have hpay : chunkPayload data 0 startAddress 0 =
      [startAddress >>> 8, startAddress &&& 0xFF] := by
    simp only [chunkPayload, hcnt, List.range_zero, List.map_nil,
      (addr_bytes_id startAddress hs).1, (addr_bytes_id startAddress hs).2]
  obtain ⟨hret, hlog⟩ := writeMultiple_log_free bus ee startAddress data 0 w
  rw [hlog, hret, writeLoop_unfold, hpay, hcnt]
  simp only [List.filter_append, filter_isBus_disable, filter_isBus_enable]
  cases hok : (bus.write w.bus ee._fullAddress [startAddress >>> 8, startAddress &&& 0xFF]
      Framing.I2C_STOP).1 <;> simp [List.filter, Event.isBus]

theorem C20_zero_length_write_witness :
    31 < 65536 ∧
    (callLog w0 (at24c32_writeMultiple okBus ee0 31 [] 0 w0).2.2).filter Event.isBus =
      [Event.i2c_write 0xA0 [0, 31] Framing.I2C_STOP true] :=
  ⟨by decide, by
    have h := C20_zero_length_write okBus ee0 31 [] w0 (by decide)
    rw [h.2] at h
    exact h.1⟩

end AT24C32
